import Mathlib

/-!
# Verification of the `br` ordered-map core (red-black tree) and skip-list range queries

Shallow embedding of `container/ordered_map/red_black_tree.go` (the full version,
whose `deleteNode`/`fixDelete` implement deletion; the build-tagged iterator files),
and of `container/skip_list/skip_list_1_23.go`.

Modelling conventions:
* Go's `*rbNode` pointer structure with `parent` back-references is rendered
  functionally: a node is an inductive tree (`RBNode`), and "the current node
  together with its chain of parents" is a zipper (`RBCtx`).  A Go pointer `n`
  with its parent chain corresponds to a pair `(ctx, n)`; `n.parent` is the
  innermost frame of `ctx`, and writing through parent pointers corresponds to
  rebuilding with `plug`.
* Go `nil` pointer dereference panics are modelled by returning `none`.
* Go `color bool` with `red = true`, `black = false` is kept as `Bool` with the
  same encoding (`true` = red, `false` = black).
* Go `int` (the `size` field) is modelled as `Int`.
* `cmp.Ordered` keys are modelled by a `LinearOrder`; `cmp.Less` is `<`.
-/

namespace RBT

/-- `rbNode` (red_black_tree.go lines 21-29) without the `parent` field: the
color tag, left child, key, value, right child.  `nil` is the Go nil pointer. -/
inductive RBNode (K V : Type) where
  | nil : RBNode K V
  | node (c : Bool) (l : RBNode K V) (k : K) (v : V) (r : RBNode K V) : RBNode K V
  deriving DecidableEq, Repr

/-- The `RedBlackTree` handle (red_black_tree.go lines 31-34): root pointer and size. -/
structure RBTree (K V : Type) where
  root : RBNode K V
  size : Int
  deriving DecidableEq, Repr

namespace RBNode

variable {K V : Type}

/-- `n != nil && n.color == red` as the Go code tests it. -/
def isRed : RBNode K V → Bool
  | node true _ _ _ _ => true
  | _ => false

/-- `n == nil` test. -/
def isNil : RBNode K V → Bool
  | nil => true
  | _ => false

/-- Number of nodes reachable from this root (the spec's "count of nodes
reachable from root"; in the functional rendering every node of the tree value
is reachable). -/
def cnt : RBNode K V → Nat
  | nil => 0
  | node _ l _ _ r => cnt l + 1 + cnt r

/-- The assignment `n.color = black` applied to the root of a subtree
(no effect on the Go nil pointer: the code never does this to nil). -/
def blacken : RBNode K V → RBNode K V
  | nil => nil
  | node _ l k v r => node false l k v r

/-- In-order key/value sequence; `inOrderPairs` (red_black_tree.go lines 369-377)
appends left-recursion results, the node's pair, then right-recursion results. -/
def inorderP : RBNode K V → List (K × V)
  | nil => []
  | node _ l k v r => inorderP l ++ (k, v) :: inorderP r

/-- In-order keys, `inOrderKeys` (red_black_tree.go lines 345-352). -/
def keysList : RBNode K V → List K
  | nil => []
  | node _ l k _ r => keysList l ++ k :: keysList r

/-- In-order values, `inOrderValues` (red_black_tree.go lines 355-366). -/
def valuesList : RBNode K V → List V
  | nil => []
  | node _ l _ v r => valuesList l ++ v :: valuesList r

end RBNode

open RBNode

/-- One parent frame of the zipper: the hole is the left or right child of a
node with the recorded color, key, value and other child; `p` is that parent
node's own parent chain.  This renders the Go `parent` pointers explicitly. -/
inductive RBCtx (K V : Type) where
  | top : RBCtx K V
  | left (p : RBCtx K V) (c : Bool) (k : K) (v : V) (r : RBNode K V) : RBCtx K V
  | right (p : RBCtx K V) (c : Bool) (l : RBNode K V) (k : K) (v : V) : RBCtx K V
  deriving DecidableEq, Repr

namespace RBCtx

variable {K V : Type}

/-- Depth of the parent chain. -/
def size : RBCtx K V → Nat
  | top => 0
  | left p _ _ _ _ => size p + 1
  | right p _ _ _ _ => size p + 1

/-- Rebuild the whole tree from a context and the subtree filling its hole.
Writing a child pointer through the parent (`y.parent.left = x` etc., and
`t.root = x` when the parent is nil) is exactly `plug`. -/
def plug : RBCtx K V → RBNode K V → RBNode K V
  | top, t => t
  | left p c k v r, t => plug p (.node c t k v r)
  | right p c l k v, t => plug p (.node c l k v t)

end RBCtx

open RBCtx

variable {K V : Type}

/-- `rotateLeft` (red_black_tree.go lines 161-177) restricted to the rotated
subtree; the surrounding pointer surgery (`y.parent = x.parent`, the parent's
child field, `t.root`) is the caller's `plug`.  Go dereferences `y := x.right`
unconditionally: a nil right child (or nil `x`) panics, modelled by `none`. -/
def rotateLeft : RBNode K V → Option (RBNode K V)
  | .node xc xl xk xv (.node yc yl yk yv yr) =>
      some (.node yc (.node xc xl xk xv yl) yk yv yr)
  | _ => none

/-- `rotateRight` (red_black_tree.go lines 180-196), mirror image. -/
def rotateRight : RBNode K V → Option (RBNode K V)
  | .node xc (.node yc yl yk yv yr) xk xv xr =>
      some (.node yc yl yk yv (.node xc yr xk xv xr))
  | _ => none

/-- `fixInsert` (red_black_tree.go lines 120-158).  The Go loop
`for n != t.root && n.parent.color == red` walks `n` up the parent chain: here
`n` is the current subtree and the context is its parent chain (`ctx = top`
iff `n == t.root`).  After the loop Go forces `t.root.color = black`; the
exit branches do the same via `blacken` on the rebuilt root.  The dereference
`n.parent.parent` panics when the red parent is the root (`none`); this cannot
happen when the root is black. -/
def fixInsert [LinearOrder K] : Nat → RBCtx K V → RBNode K V → Option (RBNode K V)
  | 0, _, _ => none        -- fuel exhausted; never reached from `Set` (the
                           -- parent chain shrinks at every iteration)
  | _ + 1, .top, n => some (blacken n)              -- loop exit: n == t.root
  | fuel + 1, .left p pc pk pv pr, n =>
      if pc = true then                             -- n.parent.color == red
        match p with
        | .top => none                              -- n.parent.parent is nil: panic
        | .left g _gc gkk gkv gr =>                 -- n.parent == n.parent.parent.left
            -- uncle := n.parent.parent.right
            if isRed gr = true then
              -- uncle red: parent, uncle black; grandparent red; n = grandparent
              fixInsert fuel g (.node true (.node false n pk pv pr) gkk gkv (blacken gr))
            else
              -- uncle black/nil; n is the parent's left child: no inner rotation.
              -- parent.color = black; grandparent.color = red; rotateRight(grandparent)
              match rotateRight (.node true (.node false n pk pv pr) gkk gkv gr) with
              | some (.node sc sl sk sv sr) =>
                  -- loop re-entry with the re-rooted subtree; n's parent is now black
                  fixInsert fuel (.left g sc sk sv sr) sl
              | _ => none
        | .right g _gc gl gkk gkv =>                -- parent is the grandparent's right child
            -- uncle := n.parent.parent.left
            if isRed gl = true then
              fixInsert fuel g (.node true (blacken gl) gkk gkv (.node false n pk pv pr))
            else
              -- uncle black/nil; n is the parent's LEFT child while the parent is a
              -- right child: inner case: n = n.parent; rotateRight(t, n); then
              -- recolor and rotateLeft(grandparent).  `rotateRight` reads `n.left`:
              -- a nil n would panic.
              match n with
              | .nil => none
              | .node nc nl nk nv nr =>
                  match rotateRight (.node pc (.node nc nl nk nv nr) pk pv pr) with
                  | some (.node _mc ml mk mv mr) =>
                      match rotateLeft (.node true gl gkk gkv (.node false ml mk mv mr)) with
                      | some (.node sc sl sk sv sr) => fixInsert fuel (.right g sc sl sk sv) sr
                      | _ => none
                  | _ => none
      else
        some (blacken (plug (.left p pc pk pv pr) n))  -- loop exit; t.root.color = black
  | fuel + 1, .right p pc pl pk pv, n =>
      if pc = true then
        match p with
        | .top => none
        | .right g _gc gl gkk gkv =>                -- parent is the grandparent's right child
            -- uncle := grandparent.left
            if isRed gl = true then
              fixInsert fuel g (.node true (blacken gl) gkk gkv (.node false pl pk pv n))
            else
              -- uncle black/nil; n is the parent's right child: straight line.
              -- parent.color = black; grandparent.color = red; rotateLeft(grandparent)
              match rotateLeft (.node true gl gkk gkv (.node false pl pk pv n)) with
              | some (.node sc sl sk sv sr) => fixInsert fuel (.right g sc sl sk sv) sr
              | _ => none
        | .left g _gc gkk gkv gr =>                 -- parent is the grandparent's left child
            if isRed gr = true then
              fixInsert fuel g (.node true (.node false pl pk pv n) gkk gkv (blacken gr))
            else
              -- inner case: n = n.parent; rotateLeft(t, n); recolor;
              -- rotateRight(grandparent).  `rotateLeft` reads `n.right`: a nil n
              -- would panic.
              match n with
              | .nil => none
              | .node nc nl nk nv nr =>
                  match rotateLeft (.node pc pl pk pv (.node nc nl nk nv nr)) with
                  | some (.node _mc ml mk mv mr) =>
                      match rotateRight (.node true (.node false ml mk mv mr) gkk gkv gr) with
                      | some (.node sc sl sk sv sr) => fixInsert fuel (.left g sc sk sv sr) sl
                      | _ => none
                  | _ => none
      else
        some (blacken (plug (.right p pc pl pk pv) n))

/-- The descent loop of `Set` (red_black_tree.go lines 84-117): find an existing
node with the key (update its value in place) or the nil slot where the new red
node is linked, then run `fixInsert`.  Returns the new root and whether a node
was inserted (`t.size++`). -/
def setGo [LinearOrder K] (key : K) (value : V) :
    RBNode K V → RBCtx K V → Option (RBNode K V × Bool)
  | .node c l k v r, ctx =>
      if key < k then setGo key value l (.left ctx c k v r)
      else if k < key then setGo key value r (.right ctx c l k v)
      else some (plug ctx (.node c l k value r), false)   -- n.value = value
  | .nil, ctx =>
      -- inserted = &rbNode{key, value, parent, color: red}; parent's child slot
      -- is exactly this hole; then fixInsert(t, inserted)
      (fixInsert (RBCtx.size ctx + 1) ctx (.node true .nil key value .nil)).map (·, true)

/-- `Set` (red_black_tree.go lines 84-117). -/
def Set [LinearOrder K] (t : RBTree K V) (key : K) (value : V) : Option (RBTree K V) :=
  match t.root with
  | .nil => some ⟨.node false .nil key value .nil, t.size + 1⟩  -- empty: black root
  | .node c l k v r =>
      match setGo key value (.node c l k v r) .top with
      | none => none
      | some (r', true) => some ⟨r', t.size + 1⟩
      | some (r', false) => some ⟨r', t.size⟩

/-- `Get` (red_black_tree.go lines 51-65): `none` models `(zero, false)`. -/
def getGo [LinearOrder K] (key : K) : RBNode K V → Option V
  | .nil => none
  | .node _ l k v r =>
      if key < k then getGo key l
      else if k < key then getGo key r
      else some v

/-- `Get` on the tree handle. -/
def Get [LinearOrder K] (t : RBTree K V) (key : K) : Option V :=
  getGo key t.root

/-- `Len` (red_black_tree.go lines 41-43). -/
def Len (t : RBTree K V) : Int := t.size

/-- `Keys` (red_black_tree.go lines 339-343). -/
def Keys (t : RBTree K V) : List K := keysList t.root

/-- `Pairs` (red_black_tree.go lines 369-373). -/
def Pairs (t : RBTree K V) : List (K × V) := inorderP t.root

/-- Case 4 of the left arm of `fixDelete` (red_black_tree.go lines 293-300):
`w.color = x.parent.color; x.parent.color = black; if w.right != nil
{ w.right.color = black }; rotateLeft(t, x.parent); x = t.root`.  Setting `x`
to the root ends the loop, and the trailing `x.color = black` then blackens
the root of the rebuilt tree. -/
def fixDelCase4L (p : RBCtx K V) (pc : Bool) (pk : K) (pv : V) (w x : RBNode K V) :
    Option (RBNode K V) :=
  match w with
  | .nil => none
  | .node _ wl wk wv wr =>
      match rotateLeft (.node false x pk pv (.node pc wl wk wv (blacken wr))) with
      | some s => some (blacken (plug p s))
      | none => none

/-- Case 4 of the right arm of `fixDelete` (red_black_tree.go lines 322-329),
mirror image of `fixDelCase4L`. -/
def fixDelCase4R (p : RBCtx K V) (pc : Bool) (pk : K) (pv : V) (w x : RBNode K V) :
    Option (RBNode K V) :=
  match w with
  | .nil => none
  | .node _ wl wk wv wr =>
      match rotateRight (.node false (.node pc (blacken wl) wk wv wr) pk pv x) with
      | some s => some (blacken (plug p s))
      | none => none

mutual

/-- `fixDelete` (red_black_tree.go lines 273-336).  The loop
`for x != t.root && x.color == black` with `x`'s parent chain as the context.
`ctx = top` iff `x == t.root`.  A red `x` ends the loop and the trailing
`x.color = black` recolors it.  Go reads `w.color` with `w := x.parent.right`
(resp. `.left`) unguarded: a nil sibling panics (`none`).  When the sibling is
red (case 1) the code recolors `w` black and the parent red, rotates at the
parent toward `x`, and refreshes `w` to the new sibling; the continuation of
the iteration is `fixDelCaseL`/`R` with the context frames produced by that
rotation. -/
def fixDelete : Nat → RBCtx K V → RBNode K V → Option (RBNode K V)
  | 0, _, _ => none       -- fuel exhausted; never reached from `deleteNode`
  | _ + 1, .top, x => some (blacken x)
  | fuel + 1, .left p pc pk pv w, x =>
      match x with
      | .nil => none
      | .node true xl xk xv xr =>
          -- x red: the loop exits and the trailing x.color = black recolors x
          some (plug (.left p pc pk pv w) (.node false xl xk xv xr))
      | .node false xl xk xv xr =>
          match w with
          | .nil => none
          | .node wc wl wk wv wr =>
              if wc = true then
                -- case 1: w.color = black; x.parent.color = red;
                -- rotateLeft(t, x.parent); w = x.parent.right.  After the
                -- rotation x sits below the red ex-parent, which sits below
                -- the black ex-sibling; the new sibling is wl.
                fixDelCaseL fuel (.left p false wk wv wr) true pk pv wl
                  (.node false xl xk xv xr)
              else
                fixDelCaseL fuel p pc pk pv (.node wc wl wk wv wr)
                  (.node false xl xk xv xr)
  | fuel + 1, .right p pc pl pk pv, x =>
      match x with
      | .nil => none
      | .node true xl xk xv xr =>
          some (plug (.right p pc pl pk pv) (.node false xl xk xv xr))
      | .node false xl xk xv xr =>
          match pl with
          | .nil => none
          | .node wc wl wk wv wr =>
              if wc = true then
                -- mirror case 1: rotateRight(t, x.parent); w = x.parent.left (= wr)
                fixDelCaseR fuel (.right p false wl wk wv) true pk pv wr
                  (.node false xl xk xv xr)
              else
                fixDelCaseR fuel p pc pk pv (.node wc wl wk wv wr)
                  (.node false xl xk xv xr)

/-- Cases 2-4 of the left arm of `fixDelete` (red_black_tree.go lines 281-301):
the checks on the sibling's children after any case-1 pre-rotation.  In case 2
(`w.color = red; x = x.parent`) the loop condition is re-checked: a red parent
ends the loop (and is blackened by the trailing `x.color = black`), a black
one continues one level up. -/
def fixDelCaseL : Nat → RBCtx K V → Bool → K → V → RBNode K V → RBNode K V →
    Option (RBNode K V)
  | 0, _, _, _, _, _, _ => none
  | fuel + 1, p, pc, pk, pv, w, x =>
  match w with
  | .nil => none                                   -- Go dereferences w.left: panic
  | .node _wc wl wk wv wr =>
      if isRed wl = false ∧ isRed wr = false then
        -- case 2: w.color = red; x = x.parent
        if pc = true then some (plug p (.node false x pk pv (.node true wl wk wv wr)))
        else fixDelete fuel p (.node false x pk pv (.node true wl wk wv wr))
      else
        if isRed wr = false then
          -- case 3: w.left.color = black (if non-nil); w.color = red;
          -- rotateRight(t, w); w = x.parent.right
          match rotateRight (.node true (blacken wl) wk wv wr) with
          | some w2 => fixDelCase4L p pc pk pv w2 x
          | none => none
        else
          fixDelCase4L p pc pk pv (.node _wc wl wk wv wr) x

/-- Cases 2-4 of the right arm of `fixDelete` (red_black_tree.go lines 303-330),
mirror image of `fixDelCaseL`. -/
def fixDelCaseR : Nat → RBCtx K V → Bool → K → V → RBNode K V → RBNode K V →
    Option (RBNode K V)
  | 0, _, _, _, _, _, _ => none
  | fuel + 1, p, pc, pk, pv, w, x =>
  match w with
  | .nil => none
  | .node _wc wl wk wv wr =>
      if isRed wr = false ∧ isRed wl = false then
        if pc = true then some (plug p (.node false (.node true wl wk wv wr) pk pv x))
        else fixDelete fuel p (.node false (.node true wl wk wv wr) pk pv x)
      else
        if isRed wl = false then
          -- mirror case 3: blacken w.right; w.color = red; rotateLeft(t, w); w = x.parent.left
          match rotateLeft (.node true wl wk wv (blacken wr)) with
          | some w2 => fixDelCase4R p pc pk pv w2 x
          | none => none
        else
          fixDelCase4R p pc pk pv (.node _wc wl wk wv wr) x

end

/-- One frame of the successor descent in `deleteNode`: a node through whose
left child the walk `for y.left != nil { y = y.left }` passed. -/
structure Frame (K V : Type) where
  fc : Bool
  fk : K
  fv : V
  fr : RBNode K V
  deriving DecidableEq, Repr

/-- The successor search of `deleteNode` (red_black_tree.go lines 233-239):
walk to the leftmost node of `z.right`, returning that node's color, key,
value and right child (`x`), together with the frames passed through. -/
def splitMinGo (c : Bool) (l : RBNode K V) (k : K) (v : V) (r : RBNode K V) :
    Bool × K × V × RBNode K V × List (Frame K V) :=
  match l with
  | .nil => (c, k, v, r, [])
  | .node c' l' k' v' r' =>
      let q := splitMinGo c' l' k' v' r'
      (q.1, q.2.1, q.2.2.1, q.2.2.2.1, ⟨c, k, v, r⟩ :: q.2.2.2.2)

/-- `deleteNode` (red_black_tree.go lines 223-270), applied to the found node
`z` given by its fields at its context.  With fewer than two children `y = z`
and its only child (or nil) `x` is spliced into `z`'s hole; with two children
the successor `y`'s key/value are copied into `z` (so the hole's parent frame
carries `ky, vy`) and `x = y.right` is spliced into `y`'s hole.  `fixDelete`
runs only under `y.color == black && x != nil` — in particular it is skipped
when the replacement child `x` is nil. -/
def delNode (ctx : RBCtx K V) (c : Bool) : RBNode K V → K → V → RBNode K V →
    Option (RBNode K V)
  | .nil, _k, _v, r =>
      -- z.left == nil: y = z, x = y.right
      if c = false ∧ r.isNil = false then fixDelete (2 * RBCtx.size ctx + 3) ctx r
      else some (plug ctx r)
  | .node lc ll lk lv lr, _k, _v, .nil =>
      -- z.right == nil: y = z, x = y.left
      if c = false ∧ (RBNode.node lc ll lk lv lr).isNil = false then
        fixDelete (2 * RBCtx.size ctx + 3) ctx (.node lc ll lk lv lr)
      else some (plug ctx (.node lc ll lk lv lr))
  | .node lc ll lk lv lr, _k, _v, .node rc rl rk rv rr =>
      -- two children: y = successor (leftmost of z.right), copy y's key/value
      -- into z, splice x = y.right into y's hole
      match splitMinGo rc rl rk rv rr with
      | (cy, ky, vy, x, path) =>
          let ctxY := path.foldl (fun acc f => RBCtx.left acc f.fc f.fk f.fv f.fr)
                        (RBCtx.right ctx c (.node lc ll lk lv lr) ky vy)
          if cy = false ∧ x.isNil = false then fixDelete (2 * RBCtx.size ctxY + 3) ctxY x
          else some (plug ctxY x)

/-- The descent of `Delete` (red_black_tree.go lines 205-220): find the node
carrying the key and run `deleteNode` on it; absent keys leave the tree
unchanged and report `false`. -/
def deleteGo [LinearOrder K] (key : K) : RBNode K V → RBCtx K V → Option (RBNode K V × Bool)
  | .nil, ctx => some (plug ctx .nil, false)
  | .node c l k v r, ctx =>
      if key < k then deleteGo key l (.left ctx c k v r)
      else if k < key then deleteGo key r (.right ctx c l k v)
      else (delNode ctx c l k v r).map (·, true)

/-- `Delete` (red_black_tree.go lines 205-220): `t.size--` on success. -/
def Delete [LinearOrder K] (t : RBTree K V) (key : K) : Option (RBTree K V × Bool) :=
  match deleteGo key t.root .top with
  | none => none
  | some (r, true) => some (⟨r, t.size - 1⟩, true)
  | some (r, false) => some (⟨r, t.size⟩, false)

/-- A mutating call against the tree: the two operations the spec's invariant
claims quantify over. -/
inductive Op (K V : Type) where
  | set (k : K) (v : V) : Op K V
  | del (k : K) : Op K V
  deriving DecidableEq, Repr

/-- `NewRedBlackTree` (red_black_tree.go lines 37-39). -/
def empty : RBTree K V := ⟨.nil, 0⟩

/-- Run one operation; `none` propagates a modelled panic. -/
def applyOp [LinearOrder K] (t : RBTree K V) : Op K V → Option (RBTree K V)
  | .set k v => Set t k v
  | .del k => (Delete t k).map (·.1)

/-- Run a sequence of operations from the empty tree. -/
def applyOps [LinearOrder K] (ops : List (Op K V)) : Option (RBTree K V) :=
  ops.foldl (fun acc op => acc.bind (applyOp · op)) (some empty)

/-- Run operations while counting the `Set` calls that inserted a key absent
at call time and the `Delete` calls that returned true. -/
def runTrace [LinearOrder K] :
    List (Op K V) → RBTree K V → Nat → Nat → Option (RBTree K V × Nat × Nat)
  | [], t, i, d => some (t, i, d)
  | .set k v :: ops, t, i, d =>
      match Set t k v with
      | none => none
      | some t' => runTrace ops t' (if k ∈ keysList t.root then i else i + 1) d
  | .del k :: ops, t, i, d =>
      match Delete t k with
      | none => none
      | some (t', found) => runTrace ops t' i (if found then d + 1 else d)

/-- Color invariant (b): no red node has a red child. -/
def rrOK : RBNode K V → Bool
  | .nil => true
  | .node c l _ _ r => rrOK l && rrOK r && !(c && (isRed l || isRed r))

/-- Color invariant (c): consistent black count on every path from the root to
an absent-child position; returns that count (the black-height) or `none`. -/
def bhChk : RBNode K V → Option Nat
  | .nil => some 0
  | .node c l _ _ r =>
      match bhChk l, bhChk r with
      | some hl, some hr => if hl = hr then some (hl + (if c then 0 else 1)) else none
      | _, _ => none

/-- Color invariant (a): the root is black (or the tree is empty). -/
def rootBlackOrEmpty : RBNode K V → Bool
  | .nil => true
  | .node c _ _ _ _ => !c

/-- BST order invariant: the in-order key sequence is strictly ascending. -/
def ordered [LinearOrder K] (n : RBNode K V) : Prop := (keysList n).Sorted (· < ·)

/-- All documented red-black invariants of the tree. -/
def validRB [LinearOrder K] (t : RBTree K V) : Prop :=
  rootBlackOrEmpty t.root = true ∧ rrOK t.root = true ∧
    (bhChk t.root).isSome = true ∧ ordered t.root

/-! ## Context decomposition: the in-order sequence of a plugged tree -/

/-- Key/value pairs lying to the left of a context's hole. -/
def ctxL : RBCtx K V → List (K × V)
  | .top => []
  | .left p _ _ _ _ => ctxL p
  | .right p _ l k v => ctxL p ++ inorderP l ++ [(k, v)]

/-- Key/value pairs lying to the right of a context's hole. -/
def ctxR : RBCtx K V → List (K × V)
  | .top => []
  | .left p _ k v r => ((k, v) :: inorderP r) ++ ctxR p
  | .right p _ _ _ _ => ctxR p

theorem inorderP_plug (ctx : RBCtx K V) (t : RBNode K V) :
    inorderP (plug ctx t) = ctxL ctx ++ inorderP t ++ ctxR ctx := by
  induction ctx generalizing t with
  | top => simp [plug, ctxL, ctxR]
  | left p c k v r ih => simp [plug, ctxL, ctxR, ih, inorderP]
  | right p c l k v ih => simp [plug, ctxL, ctxR, ih, inorderP]

theorem keysList_eq_map_inorderP (n : RBNode K V) :
    keysList n = (inorderP n).map Prod.fst := by
  induction n <;> simp [keysList, inorderP, *]

theorem inorderP_blacken (n : RBNode K V) : inorderP (blacken n) = inorderP n := by
  cases n <;> simp [blacken, inorderP]

theorem cnt_eq_length_inorderP (n : RBNode K V) : cnt n = (inorderP n).length := by
  induction n <;> simp [cnt, inorderP, *] <;> omega

set_option maxHeartbeats 2000000 in
/-- `fixInsert` only recolors and rotates: whenever it completes, the resulting
root has the same in-order key/value sequence as the tree it started from. -/
theorem fixInsert_inorder [LinearOrder K] (fuel : Nat) (ctx : RBCtx K V) (n : RBNode K V) :
    ∀ r', fixInsert fuel ctx n = some r' → inorderP r' = inorderP (plug ctx n) := by
  induction fuel, ctx, n using fixInsert.induct <;>
    (intro r' h
     rw [fixInsert.eq_def] at h) <;>
    (try simp_all [rotateLeft, rotateRight, inorderP_plug, inorderP, inorderP_blacken, plug,
       ctxL, ctxR])
  all_goals
    first
    | (subst h; simp [inorderP_blacken, inorderP_plug, inorderP])
    | (rename_i hx; exact absurd rfl (hx _ _ _ _ rfl rfl rfl))
    | (rename_i hand
       rcases Bool.eq_false_or_eq_true (‹Bool›) with hb | hb
       · exact absurd rfl (hand.2 _ _ _ _ hb rfl rfl rfl)
       · exact absurd rfl (hand.1 _ _ _ _ hb rfl rfl rfl))
    | (rename_i hx
       obtain ⟨rfl, rfl, rfl, rfl, rfl⟩ := hx
       try (rename_i hy; obtain ⟨rfl, rfl, rfl, rfl, rfl⟩ := hy)
       first | simp [inorderP] | (rename_i hz; exact absurd rfl (hz _ _ _ _ rfl rfl rfl)))

theorem rotateLeft_inorder (t s : RBNode K V) (h : rotateLeft t = some s) :
    inorderP s = inorderP t := by
  cases t with
  | nil => simp [rotateLeft] at h
  | node c l k v r =>
      cases r with
      | nil => simp [rotateLeft] at h
      | node rc rl rk rv rr =>
          simp only [rotateLeft, Option.some.injEq] at h
          subst h; simp [inorderP]

theorem rotateRight_inorder (t s : RBNode K V) (h : rotateRight t = some s) :
    inorderP s = inorderP t := by
  cases t with
  | nil => simp [rotateRight] at h
  | node c l k v r =>
      cases l with
      | nil => simp [rotateRight] at h
      | node lc ll lk lv lr =>
          simp only [rotateRight, Option.some.injEq] at h
          subst h; simp [inorderP]

theorem fixDelCase4L_inorder (p : RBCtx K V) (pc : Bool) (pk : K) (pv : V)
    (w x r' : RBNode K V) (h : fixDelCase4L p pc pk pv w x = some r') :
    inorderP r' = inorderP (plug p (.node pc x pk pv w)) := by
  cases w with
  | nil => simp [fixDelCase4L] at h
  | node wc wl wk wv wr =>
      simp only [fixDelCase4L, rotateLeft, Option.some.injEq] at h
      subst h
      simp [inorderP_plug, inorderP, inorderP_blacken]

theorem fixDelCase4R_inorder (p : RBCtx K V) (pc : Bool) (pk : K) (pv : V)
    (w x r' : RBNode K V) (h : fixDelCase4R p pc pk pv w x = some r') :
    inorderP r' = inorderP (plug p (.node pc w pk pv x)) := by
  cases w with
  | nil => simp [fixDelCase4R] at h
  | node wc wl wk wv wr =>
      simp only [fixDelCase4R, rotateRight, Option.some.injEq] at h
      subst h
      simp [inorderP_plug, inorderP, inorderP_blacken]

set_option maxHeartbeats 2000000 in
/-- Joint inorder-preservation for the delete-fixup loop and its case
continuations, by induction on the fuel: any completed run only recolors and
rotates, preserving the in-order key/value sequence. -/
theorem fixDel_inorder_joint :
    ∀ fuel : Nat,
      (∀ (ctx : RBCtx K V) (x r' : RBNode K V), fixDelete fuel ctx x = some r' →
          inorderP r' = inorderP (plug ctx x)) ∧
      (∀ (p : RBCtx K V) (pc : Bool) (pk : K) (pv : V) (w x r' : RBNode K V),
          fixDelCaseR fuel p pc pk pv w x = some r' →
          inorderP r' = inorderP (plug p (.node pc w pk pv x))) ∧
      (∀ (p : RBCtx K V) (pc : Bool) (pk : K) (pv : V) (w x r' : RBNode K V),
          fixDelCaseL fuel p pc pk pv w x = some r' →
          inorderP r' = inorderP (plug p (.node pc x pk pv w))) := by
  intro fuel
  induction fuel with
  | zero =>
      refine ⟨?_, ?_, ?_⟩ <;>
        (intros; rename_i h; exact Option.noConfusion h)
  | succ fuel ih =>
      obtain ⟨ihD, ihR, ihL⟩ := ih
      refine ⟨?_, ?_, ?_⟩
      · intro ctx x r' h
        cases ctx with
        | top =>
            simp only [fixDelete, Option.some.injEq] at h
            subst h
            simp [plug, inorderP_blacken]
        | left p pc pk pv w =>
            cases x with
            | nil => simp [fixDelete] at h
            | node xc xl xk xv xr =>
                cases xc with
                | true =>
                    simp only [fixDelete, Option.some.injEq] at h
                    subst h
                    simp [inorderP_plug, inorderP]
                | false =>
                    cases w with
                    | nil => simp [fixDelete] at h
                    | node wc wl wk wv wr =>
                        cases wc with
                        | true =>
                            simp only [fixDelete, if_pos] at h
                            rw [ihL _ _ _ _ _ _ _ h]
                            simp [plug, inorderP_plug, inorderP, ctxL, ctxR,
                              List.append_assoc]
                        | false =>
                            simp only [fixDelete, Bool.false_eq_true, if_false] at h
                            rw [ihL _ _ _ _ _ _ _ h]
                            simp [plug]
        | right p pc pl pk pv =>
            cases x with
            | nil => simp [fixDelete] at h
            | node xc xl xk xv xr =>
                cases xc with
                | true =>
                    simp only [fixDelete, Option.some.injEq] at h
                    subst h
                    simp [inorderP_plug, inorderP]
                | false =>
                    cases pl with
                    | nil => simp [fixDelete] at h
                    | node wc wl wk wv wr =>
                        cases wc with
                        | true =>
                            simp only [fixDelete, if_pos] at h
                            rw [ihR _ _ _ _ _ _ _ h]
                            simp [plug, inorderP_plug, inorderP, ctxL, ctxR,
                              List.append_assoc]
                        | false =>
                            simp only [fixDelete, Bool.false_eq_true, if_false] at h
                            rw [ihR _ _ _ _ _ _ _ h]
                            simp [plug]
      · intro p pc pk pv w x r' h
        cases w with
        | nil => simp [fixDelCaseR] at h
        | node wc wl wk wv wr =>
            by_cases hbb : isRed wr = false ∧ isRed wl = false
            · rw [fixDelCaseR, if_pos hbb] at h
              cases pc with
              | true =>
                  rw [if_pos rfl, Option.some.injEq] at h
                  subst h
                  simp [inorderP_plug, inorderP]
              | false =>
                  rw [if_neg (by simp)] at h
                  rw [ihD _ _ _ h]
                  simp [inorderP_plug, inorderP]
            · rw [fixDelCaseR, if_neg hbb] at h
              by_cases hwl : isRed wl = false
              · rw [if_pos hwl] at h
                cases wr with
                | nil => simp [blacken, rotateLeft] at h
                | node wrc wrl wrk wrv wrr =>
                    simp only [blacken, rotateLeft] at h
                    rw [fixDelCase4R_inorder _ _ _ _ _ _ _ h]
                    simp [inorderP_plug, inorderP, List.append_assoc]
              · rw [if_neg hwl] at h
                rw [fixDelCase4R_inorder _ _ _ _ _ _ _ h]
      · intro p pc pk pv w x r' h
        cases w with
        | nil => simp [fixDelCaseL] at h
        | node wc wl wk wv wr =>
            by_cases hbb : isRed wl = false ∧ isRed wr = false
            · rw [fixDelCaseL, if_pos hbb] at h
              cases pc with
              | true =>
                  rw [if_pos rfl, Option.some.injEq] at h
                  subst h
                  simp [inorderP_plug, inorderP]
              | false =>
                  rw [if_neg (by simp)] at h
                  rw [ihD _ _ _ h]
                  simp [inorderP_plug, inorderP]
            · rw [fixDelCaseL, if_neg hbb] at h
              by_cases hwr : isRed wr = false
              · rw [if_pos hwr] at h
                cases wl with
                | nil => simp [blacken, rotateRight] at h
                | node wlc wll wlk wlv wlr =>
                    simp only [blacken, rotateRight] at h
                    rw [fixDelCase4L_inorder _ _ _ _ _ _ _ h]
                    simp [inorderP_plug, inorderP, List.append_assoc]
              · rw [if_neg hwr] at h
                rw [fixDelCase4L_inorder _ _ _ _ _ _ _ h]

/-- `fixDelete` only recolors and rotates: whenever it completes, the resulting
root has the same in-order key/value sequence as the tree it started from. -/
theorem fixDelete_inorder (fuel : Nat) (ctx : RBCtx K V) (x r' : RBNode K V)
    (h : fixDelete fuel ctx x = some r') : inorderP r' = inorderP (plug ctx x) :=
  (fixDel_inorder_joint fuel).1 ctx x r' h

/-! ## List-level specification of insertion and deletion -/

/-- Insertion into the (sorted) in-order pair sequence: the list-level effect of
`Set`: insert before the first strictly larger key, or replace the value at an
equal key in place. -/
def linsert [LinearOrder K] (key : K) (value : V) : List (K × V) → List (K × V)
  | [] => [(key, value)]
  | (k, v) :: rest =>
      if key < k then (key, value) :: (k, v) :: rest
      else if k < key then (k, v) :: linsert key value rest
      else (k, value) :: rest

/-- Removal of the first pair carrying the given key: the list-level effect of
a successful `Delete`. -/
def eraseKeyP [LinearOrder K] (key : K) : List (K × V) → List (K × V)
  | [] => []
  | (k, v) :: rest => if k = key then rest else (k, v) :: eraseKeyP key rest

/-- Sortedness of the key projection of a pair sequence. -/
def PSorted [LinearOrder K] (l : List (K × V)) : Prop :=
  (l.map Prod.fst).Sorted (· < ·)

theorem linsert_append_of_lt [LinearOrder K] (key : K) (value : V) (k : K) (v : V)
    (xs ys : List (K × V)) (hk : key < k) :
    linsert key value (xs ++ (k, v) :: ys) = linsert key value xs ++ (k, v) :: ys := by
  induction xs with
  | nil => simp [linsert, hk]
  | cons a rest ih =>
      obtain ⟨ak, av⟩ := a
      by_cases h1 : key < ak <;> by_cases h2 : ak < key <;>
        simp [linsert, h1, h2, ih]

theorem linsert_append_of_gt [LinearOrder K] (key : K) (value : V) (k : K) (v : V)
    (xs ys : List (K × V)) (hk : k < key) (hxs : ∀ a ∈ xs.map Prod.fst, a < key) :
    linsert key value (xs ++ (k, v) :: ys) = xs ++ (k, v) :: linsert key value ys := by
  induction xs with
  | nil => simp [linsert, hk, asymm hk]
  | cons a rest ih =>
      obtain ⟨ak, av⟩ := a
      have hak : ak < key := hxs ak (by simp)
      simp only [List.cons_append, List.append_eq, linsert, if_neg (asymm hak), if_pos hak]
      rw [ih (fun a ha => hxs a (by simp [ha]))]

theorem linsert_append_of_eq [LinearOrder K] (key : K) (value : V) (k : K) (v : V)
    (xs ys : List (K × V)) (h1 : ¬ key < k) (h2 : ¬ k < key)
    (hxs : ∀ a ∈ xs.map Prod.fst, a < key) :
    linsert key value (xs ++ (k, v) :: ys) = xs ++ (k, value) :: ys := by
  induction xs with
  | nil => simp [linsert, h1, h2]
  | cons a rest ih =>
      obtain ⟨ak, av⟩ := a
      have hak : ak < key := hxs ak (by simp)
      have hk : k = key := le_antisymm (not_lt.mp h1) (not_lt.mp h2) |>.symm ▸ rfl
      simp only [List.cons_append, List.append_eq, linsert, if_neg (asymm hak), if_pos hak]
      rw [ih (fun a ha => hxs a (by simp [ha]))]

theorem eraseKeyP_append_of_eq [LinearOrder K] (key : K) (v : V)
    (xs ys : List (K × V)) (hxs : ∀ a ∈ xs.map Prod.fst, a ≠ key) :
    eraseKeyP key (xs ++ (key, v) :: ys) = xs ++ ys := by
  induction xs with
  | nil => simp [eraseKeyP]
  | cons a rest ih =>
      obtain ⟨ak, av⟩ := a
      have hak : ak ≠ key := hxs ak (by simp)
      simp only [List.cons_append, List.append_eq, eraseKeyP, if_neg hak]
      rw [ih (fun a ha => hxs a (by simp [ha]))]

/-- Key-projection of `linsert`: sorted insertion into the key list (no new key
when an equal key is already at the comparison point). -/
def insertK [LinearOrder K] (key : K) : List K → List K
  | [] => [key]
  | k :: rest => if key < k then key :: k :: rest
      else if k < key then k :: insertK key rest
      else k :: rest

/-- Key-projection of `eraseKeyP`: drop the first occurrence. -/
def eraseK [LinearOrder K] (key : K) : List K → List K
  | [] => []
  | k :: rest => if k = key then rest else k :: eraseK key rest

theorem map_fst_linsert [LinearOrder K] (key : K) (value : V) (l : List (K × V)) :
    (linsert key value l).map Prod.fst = insertK key (l.map Prod.fst) := by
  induction l with
  | nil => simp [linsert, insertK]
  | cons a rest ih =>
      obtain ⟨ak, av⟩ := a
      by_cases h1 : key < ak <;> by_cases h2 : ak < key <;>
        simp [linsert, insertK, h1, h2, ih]

theorem map_fst_eraseKeyP [LinearOrder K] (key : K) (l : List (K × V)) :
    (eraseKeyP key l).map Prod.fst = eraseK key (l.map Prod.fst) := by
  induction l with
  | nil => simp [eraseKeyP, eraseK]
  | cons a rest ih =>
      obtain ⟨ak, av⟩ := a
      by_cases h1 : ak = key <;> simp [eraseKeyP, eraseK, h1, ih]

theorem mem_insertK [LinearOrder K] (key b : K) (l : List K) :
    b ∈ insertK key l ↔ b = key ∨ b ∈ l := by
  induction l with
  | nil => simp [insertK]
  | cons k rest ih =>
      by_cases h1 : key < k
      · simp only [insertK, if_pos h1, List.mem_cons]
        try tauto
      · by_cases h2 : k < key
        · simp only [insertK, if_neg h1, if_pos h2, List.mem_cons, ih]
          try tauto
        · have hkk : k = key := le_antisymm (not_lt.mp h1) (not_lt.mp h2)
          subst hkk
          simp only [insertK, if_neg h1, if_neg h2, List.mem_cons]
          try tauto

theorem insertK_sorted [LinearOrder K] (key : K) (l : List K)
    (h : l.Sorted (· < ·)) : (insertK key l).Sorted (· < ·) := by
  induction l with
  | nil => simp [insertK]
  | cons k rest ih =>
      rw [List.sorted_cons] at h
      by_cases h1 : key < k
      · rw [insertK, if_pos h1, List.sorted_cons]
        refine ⟨fun b hb => ?_, List.sorted_cons.mpr h⟩
        rcases List.mem_cons.mp hb with rfl | hb
        · exact h1
        · exact h1.trans (h.1 b hb)
      · by_cases h2 : k < key
        · rw [insertK, if_neg h1, if_pos h2, List.sorted_cons]
          refine ⟨fun b hb => ?_, ih h.2⟩
          rcases (mem_insertK key b rest).mp hb with rfl | hb
          · exact h2
          · exact h.1 b hb
        · rw [insertK, if_neg h1, if_neg h2]
          exact List.sorted_cons.mpr h

theorem insertK_length_of_not_mem [LinearOrder K] (key : K) (l : List K)
    (h : key ∉ l) : (insertK key l).length = l.length + 1 := by
  induction l with
  | nil => simp [insertK]
  | cons k rest ih =>
      by_cases h1 : key < k
      · simp [insertK, h1]
      · by_cases h2 : k < key
        · simp only [insertK, if_neg h1, if_pos h2, List.length_cons]
          rw [ih (fun hm => h (List.mem_cons_of_mem _ hm))]
        · refine absurd (le_antisymm (not_lt.mp h2) (not_lt.mp h1)) (fun he => h ?_)
          rw [he]
          exact List.mem_cons_self _ _

theorem insertK_length_of_mem [LinearOrder K] (key : K) (l : List K)
    (hs : l.Sorted (· < ·)) (h : key ∈ l) : (insertK key l).length = l.length := by
  induction l with
  | nil => simp at h
  | cons k rest ih =>
      rw [List.sorted_cons] at hs
      by_cases h1 : key < k
      · rcases List.mem_cons.mp h with rfl | h
        · exact absurd h1 (lt_irrefl _)
        · exact absurd (hs.1 key h) (asymm h1)
      · by_cases h2 : k < key
        · have hmem : key ∈ rest := by
            rcases List.mem_cons.mp h with rfl | hm
            · exact absurd h2 (lt_irrefl _)
            · exact hm
          simp only [insertK, if_neg h1, if_pos h2, List.length_cons]
          rw [ih hs.2 hmem]
        · simp [insertK, h1, h2]

theorem eraseK_sublist [LinearOrder K] (key : K) (l : List K) :
    (eraseK key l).Sublist l := by
  induction l with
  | nil => simp [eraseK]
  | cons k rest ih =>
      by_cases h1 : k = key
      · simpa [eraseK, h1] using List.sublist_cons_self _ _
      · rw [eraseK, if_neg h1]
        exact ih.cons₂ k

theorem eraseK_sorted [LinearOrder K] (key : K) (l : List K)
    (h : l.Sorted (· < ·)) : (eraseK key l).Sorted (· < ·) :=
  h.sublist (eraseK_sublist key l)

theorem eraseK_of_not_mem [LinearOrder K] (key : K) (l : List K) (h : key ∉ l) :
    eraseK key l = l := by
  induction l with
  | nil => rfl
  | cons k rest ih =>
      have hk : ¬ k = key := fun he => h (by rw [← he]; exact List.mem_cons_self _ _)
      rw [eraseK, if_neg hk, ih (fun hm => h (List.mem_cons_of_mem _ hm))]

theorem eraseK_length_of_mem [LinearOrder K] (key : K) (l : List K) (h : key ∈ l) :
    (eraseK key l).length + 1 = l.length := by
  induction l with
  | nil => simp at h
  | cons k rest ih =>
      by_cases h1 : k = key
      · simp [eraseK, h1]
      · have hmem : key ∈ rest := by
          rcases List.mem_cons.mp h with rfl | hm
          · exact absurd rfl h1
          · exact hm
        simp only [eraseK, if_neg h1, List.length_cons]
        rw [ih hmem]

theorem eraseKeyP_linsert_roundtrip [LinearOrder K] (key : K) (value : V)
    (l : List (K × V)) (h : key ∉ l.map Prod.fst) :
    eraseKeyP key (linsert key value l) = l := by
  induction l with
  | nil => simp [linsert, eraseKeyP]
  | cons a rest ih =>
      obtain ⟨ak, av⟩ := a
      have hak : ak ≠ key := by
        intro he; exact h (by simp [he])
      by_cases h1 : key < ak
      · simp [linsert, h1, eraseKeyP, hak]
      · by_cases h2 : ak < key
        · simp only [linsert, if_neg h1, if_pos h2, eraseKeyP, if_neg hak]
          rw [ih (fun hm => h (List.mem_cons_of_mem _ hm))]
        · exact absurd (le_antisymm (not_lt.mp h1) (not_lt.mp h2)) hak

/-! ## Behaviour of Set and Delete on ordered trees -/

theorem sorted_node_facts [LinearOrder K] {c : Bool} {l : RBNode K V} {k : K} {v : V}
    {r : RBNode K V} (h : (keysList (RBNode.node c l k v r)).Sorted (· < ·)) :
    (keysList l).Sorted (· < ·) ∧ (keysList r).Sorted (· < ·) ∧
      (∀ a ∈ keysList l, a < k) ∧ (∀ b ∈ keysList r, k < b) := by
  rw [keysList] at h
  have h' : (keysList l ++ k :: keysList r).Pairwise (· < ·) := h
  rw [List.pairwise_append] at h'
  obtain ⟨hl, hkr, hx⟩ := h'
  rw [List.pairwise_cons] at hkr
  exact ⟨hl, hkr.2, fun a ha => hx a ha k (List.mem_cons_self _ _),
    fun b hb => hkr.1 b hb⟩

theorem setGo_spec [LinearOrder K] (key : K) (value : V) :
    ∀ (n : RBNode K V) (ctx : RBCtx K V) (r' : RBNode K V) (b : Bool),
      (keysList n).Sorted (· < ·) →
      setGo key value n ctx = some (r', b) →
      inorderP r' = ctxL ctx ++ linsert key value (inorderP n) ++ ctxR ctx ∧
        (b = true ↔ key ∉ keysList n) := by
  intro n
  induction n with
  | nil =>
      intro ctx r' b _ h
      simp only [setGo, Option.map_eq_some'] at h
      obtain ⟨r0, hfix, heq⟩ := h
      obtain ⟨rfl, rfl⟩ : r0 = r' ∧ true = b := by
        constructor <;> cases heq <;> rfl
      refine ⟨?_, by simp [keysList]⟩
      rw [fixInsert_inorder _ _ _ _ hfix, inorderP_plug]
      simp [inorderP, linsert]
  | node c l k v r ihl ihr =>
      intro ctx r' b hs h
      obtain ⟨hsl, hsr, hbl, hbr⟩ := sorted_node_facts hs
      by_cases h1 : key < k
      · rw [setGo, if_pos h1] at h
        obtain ⟨hio, hb⟩ := ihl (.left ctx c k v r) r' b hsl h
        constructor
        · rw [hio]
          simp only [ctxL, ctxR, inorderP]
          rw [linsert_append_of_lt key value k v _ _ h1]
          simp [List.append_assoc]
        · rw [hb, keysList]
          simp only [List.mem_append, List.mem_cons]
          constructor
          · intro hne hc
            rcases hc with hc | hc | hc
            · exact hne hc
            · exact absurd (hc ▸ h1) (lt_irrefl _)
            · exact absurd (h1.trans (hbr key hc)) (lt_irrefl _)
          · tauto
      · by_cases h2 : k < key
        · rw [setGo, if_neg h1, if_pos h2] at h
          obtain ⟨hio, hb⟩ := ihr (.right ctx c l k v) r' b hsr h
          constructor
          · rw [hio]
            simp only [ctxL, ctxR, inorderP]
            rw [linsert_append_of_gt key value k v _ _ h2
              (by rw [← keysList_eq_map_inorderP]; exact fun a ha => (hbl a ha).trans h2)]
            simp [List.append_assoc]
          · rw [hb, keysList]
            simp only [List.mem_append, List.mem_cons]
            constructor
            · intro hne hc
              rcases hc with hc | hc | hc
              · exact absurd ((hbl key hc).trans h2) (lt_irrefl _)
              · exact absurd (hc ▸ h2) (lt_irrefl _)
              · exact hne hc
            · tauto
        · rw [setGo, if_neg h1, if_neg h2] at h
          obtain ⟨rfl, rfl⟩ : plug ctx (.node c l k value r) = r' ∧ false = b := by
            constructor <;> cases h <;> rfl
          constructor
          · rw [inorderP_plug]
            simp only [inorderP]
            rw [linsert_append_of_eq key value k v _ _ h1 h2
              (by rw [← keysList_eq_map_inorderP]; exact fun a ha => (hbl a ha).trans_le (not_lt.mp h1))]
          · simp only [keysList, List.mem_append, List.mem_cons]
            have : k = key := le_antisymm (not_lt.mp h1) (not_lt.mp h2)
            simp [this]

/-- Rebuild the left-spine frames produced by `splitMinGo` around a subtree. -/
def spinePlug (path : List (Frame K V)) (t : RBNode K V) : RBNode K V :=
  path.foldr (fun f s => RBNode.node f.fc s f.fk f.fv f.fr) t

theorem plug_foldl (path : List (Frame K V)) (base : RBCtx K V) (t : RBNode K V) :
    plug (path.foldl (fun acc f => RBCtx.left acc f.fc f.fk f.fv f.fr) base) t
      = plug base (spinePlug path t) := by
  induction path generalizing base with
  | nil => simp [spinePlug]
  | cons f rest ih =>
      simp only [List.foldl_cons, spinePlug, List.foldr_cons]
      rw [ih]
      simp [plug, spinePlug]

theorem splitMinGo_spec (c : Bool) (l : RBNode K V) (k : K) (v : V) (r : RBNode K V) :
    ∀ cy ky vy x path, splitMinGo c l k v r = (cy, ky, vy, x, path) →
      inorderP (RBNode.node c l k v r) = (ky, vy) :: inorderP (spinePlug path x) := by
  induction l generalizing c k v r with
  | nil =>
      intro cy ky vy x path h
      simp only [splitMinGo, Prod.mk.injEq] at h
      obtain ⟨rfl, rfl, rfl, rfl, rfl⟩ := h
      simp [inorderP, spinePlug]
  | node c' l' k' v' r' ihl ihr =>
      intro cy ky vy x path h
      obtain ⟨qc, qk, qv, qx, qpath, hq⟩ :
          ∃ a b u d e, splitMinGo c' l' k' v' r' = (a, b, u, d, e) := ⟨_, _, _, _, _, rfl⟩
      rw [splitMinGo] at h
      simp only [hq, Prod.mk.injEq] at h
      obtain ⟨rfl, rfl, rfl, rfl, rfl⟩ := h
      have hrec := ihl c' k' v' r' qc qk qv qx qpath hq
      conv_lhs => rw [inorderP]
      rw [hrec]
      simp [inorderP, spinePlug]

theorem eraseKeyP_of_ne [LinearOrder K] (key : K) (l : List (K × V))
    (h : ∀ a ∈ l.map Prod.fst, a ≠ key) : eraseKeyP key l = l := by
  induction l with
  | nil => rfl
  | cons a rest ih =>
      obtain ⟨ak, av⟩ := a
      rw [eraseKeyP, if_neg (h ak (by simp)), ih (fun a ha => h a (by simp [ha]))]

theorem eraseKeyP_append_left [LinearOrder K] (key : K) (xs ys : List (K × V))
    (h : ∀ a ∈ xs.map Prod.fst, a ≠ key) :
    eraseKeyP key (xs ++ ys) = xs ++ eraseKeyP key ys := by
  induction xs with
  | nil => simp
  | cons a rest ih =>
      obtain ⟨ak, av⟩ := a
      rw [List.cons_append, eraseKeyP, if_neg (h ak (by simp)), List.cons_append,
        ih (fun a ha => h a (by simp [ha]))]

theorem eraseKeyP_append_right [LinearOrder K] (key : K) (xs ys : List (K × V))
    (h : ∀ a ∈ ys.map Prod.fst, a ≠ key) :
    eraseKeyP key (xs ++ ys) = eraseKeyP key xs ++ ys := by
  induction xs with
  | nil => simp [eraseKeyP, eraseKeyP_of_ne key ys h]
  | cons a rest ih =>
      obtain ⟨ak, av⟩ := a
      by_cases h1 : ak = key
      · simp [eraseKeyP, h1]
      · rw [List.cons_append, eraseKeyP, if_neg h1, eraseKeyP, if_neg h1, List.cons_append, ih]

theorem delNode_spec [LinearOrder K] (ctx : RBCtx K V) (c : Bool) (l : RBNode K V)
    (k : K) (v : V) (r : RBNode K V) (r' : RBNode K V)
    (hnel : ∀ a ∈ (inorderP l).map Prod.fst, a ≠ k)
    (h : delNode ctx c l k v r = some r') :
    inorderP r' = ctxL ctx ++ eraseKeyP k (inorderP (.node c l k v r)) ++ ctxR ctx := by
  cases l with
  | nil =>
      rw [delNode] at h
      by_cases hcnd : c = false ∧ RBNode.isNil r = false
      · rw [if_pos hcnd] at h
        rw [fixDelete_inorder _ _ _ _ h, inorderP_plug]
        simp [inorderP, eraseKeyP]
      · rw [if_neg hcnd, Option.some.injEq] at h
        subst h
        rw [inorderP_plug]
        simp [inorderP, eraseKeyP]
  | node lc ll lk lv lr =>
      cases r with
      | nil =>
          have herase : eraseKeyP k (inorderP (RBNode.node lc ll lk lv lr)
                ++ (k, v) :: inorderP RBNode.nil)
              = inorderP (RBNode.node lc ll lk lv lr) := by
            rw [eraseKeyP_append_of_eq k v _ _ hnel]
            simp [inorderP]
          rw [delNode] at h
          by_cases hcnd : c = false ∧ RBNode.isNil (RBNode.node lc ll lk lv lr) = false
          · rw [if_pos hcnd] at h
            rw [fixDelete_inorder _ _ _ _ h, inorderP_plug]
            conv_rhs => rw [inorderP]
            rw [herase]
          · rw [if_neg hcnd, Option.some.injEq] at h
            subst h
            rw [inorderP_plug]
            conv_rhs => rw [inorderP]
            rw [herase]
      | node rc rl rk rv rr =>
          obtain ⟨qc, qk, qv, qx, qpath, hq⟩ :
              ∃ a b2 u d e, splitMinGo rc rl rk rv rr = (a, b2, u, d, e) :=
            ⟨_, _, _, _, _, rfl⟩
          rw [delNode, hq] at h
          simp only [] at h
          have hmin := splitMinGo_spec rc rl rk rv rr qc qk qv qx qpath hq
          have hplugged : ∀ t : RBNode K V,
              inorderP (plug (qpath.foldl
                  (fun acc f => RBCtx.left acc f.fc f.fk f.fv f.fr)
                  (RBCtx.right ctx c (.node lc ll lk lv lr) qk qv)) t)
                = ctxL ctx ++ (inorderP (RBNode.node lc ll lk lv lr)
                    ++ (qk, qv) :: inorderP (spinePlug qpath t)) ++ ctxR ctx := by
            intro t
            rw [plug_foldl, inorderP_plug]
            simp [ctxL, ctxR, inorderP, List.append_assoc]
          have herase : eraseKeyP k (inorderP (RBNode.node lc ll lk lv lr)
                ++ (k, v) :: inorderP (RBNode.node rc rl rk rv rr))
              = inorderP (RBNode.node lc ll lk lv lr)
                  ++ (qk, qv) :: inorderP (spinePlug qpath qx) := by
            rw [eraseKeyP_append_of_eq k v _ _ hnel, hmin]
          by_cases hcnd : qc = false ∧ RBNode.isNil qx = false
          · rw [if_pos hcnd] at h
            rw [fixDelete_inorder _ _ _ _ h, hplugged]
            conv_rhs => rw [inorderP]
            rw [herase]
          · rw [if_neg hcnd, Option.some.injEq] at h
            subst h
            rw [hplugged]
            conv_rhs => rw [inorderP]
            rw [herase]

theorem deleteGo_spec [LinearOrder K] (key : K) :
    ∀ (n : RBNode K V) (ctx : RBCtx K V) (r' : RBNode K V) (b : Bool),
      (keysList n).Sorted (· < ·) →
      deleteGo key n ctx = some (r', b) →
      inorderP r' = ctxL ctx ++ eraseKeyP key (inorderP n) ++ ctxR ctx ∧
        (b = true ↔ key ∈ keysList n) := by
  intro n
  induction n with
  | nil =>
      intro ctx r' b _ h
      simp only [deleteGo, Option.some.injEq, Prod.mk.injEq] at h
      obtain ⟨rfl, rfl⟩ := h
      simp [inorderP_plug, inorderP, eraseKeyP, keysList]
  | node c l k v r ihl ihr =>
      intro ctx r' b hs h
      obtain ⟨hsl, hsr, hbl, hbr⟩ := sorted_node_facts hs
      by_cases h1 : key < k
      · rw [deleteGo, if_pos h1] at h
        obtain ⟨hio, hb⟩ := ihl (.left ctx c k v r) r' b hsl h
        refine ⟨?_, ?_⟩
        · rw [hio]
          simp only [ctxL, ctxR, inorderP]
          rw [eraseKeyP_append_right key _ ((k, v) :: inorderP r) ?_]
          · simp [List.append_assoc]
          · intro a ha
            simp only [List.map_cons, List.mem_cons, ← keysList_eq_map_inorderP] at ha
            rcases ha with rfl | ha
            · exact (ne_of_lt h1).symm
            · exact ne_of_gt (h1.trans (hbr a ha))
        · rw [hb, keysList]
          simp only [List.mem_append, List.mem_cons]
          constructor
          · tauto
          · intro hc
            rcases hc with hc | hc | hc
            · exact hc
            · exact absurd (hc ▸ h1) (lt_irrefl _)
            · exact absurd (h1.trans (hbr key hc)) (lt_irrefl _)
      · by_cases h2 : k < key
        · rw [deleteGo, if_neg h1, if_pos h2] at h
          obtain ⟨hio, hb⟩ := ihr (.right ctx c l k v) r' b hsr h
          refine ⟨?_, ?_⟩
          · rw [hio]
            simp only [ctxL, ctxR, inorderP]
            have hsplit : inorderP l ++ (k, v) :: inorderP r
                = (inorderP l ++ [(k, v)]) ++ inorderP r := by simp
            rw [hsplit, eraseKeyP_append_left key (inorderP l ++ [(k, v)]) (inorderP r) ?_]
            · simp [List.append_assoc]
            · intro a ha
              simp only [List.map_append, List.mem_append, List.map_cons, List.map_nil,
                List.mem_singleton, ← keysList_eq_map_inorderP] at ha
              rcases ha with ha | rfl
              · exact ne_of_lt ((hbl a ha).trans h2)
              · exact ne_of_lt h2
          · rw [hb, keysList]
            simp only [List.mem_append, List.mem_cons]
            constructor
            · tauto
            · intro hc
              rcases hc with hc | hc | hc
              · exact absurd ((hbl key hc).trans h2) (lt_irrefl _)
              · exact absurd (hc ▸ h2) (lt_irrefl _)
              · exact hc
        · have hkk : k = key := le_antisymm (not_lt.mp h1) (not_lt.mp h2)
          subst hkk
          rw [deleteGo, if_neg h1, if_neg h2, Option.map_eq_some'] at h
          obtain ⟨r0, hdel, heq⟩ := h
          obtain ⟨rfl, rfl⟩ : r0 = r' ∧ true = b := by
            constructor <;> cases heq <;> rfl
          refine ⟨?_, by simp [keysList]⟩
          refine delNode_spec ctx c l k v r _ ?_ hdel
          intro a ha
          rw [← keysList_eq_map_inorderP] at ha
          exact ne_of_lt (hbl a ha)

/-- `Delete` on an absent key rebuilds the tree unchanged along the search path
and reports not-found. -/
theorem deleteGo_notfound [LinearOrder K] (key : K) :
    ∀ (n : RBNode K V) (ctx : RBCtx K V),
      (keysList n).Sorted (· < ·) → key ∉ keysList n →
      deleteGo key n ctx = some (plug ctx n, false) := by
  intro n
  induction n with
  | nil => intro ctx _ _; rfl
  | node c l k v r ihl ihr =>
      intro ctx hs hmem
      obtain ⟨hsl, hsr, hbl, hbr⟩ := sorted_node_facts hs
      rw [keysList] at hmem
      simp only [List.mem_append, List.mem_cons] at hmem
      push_neg at hmem
      by_cases h1 : key < k
      · rw [deleteGo, if_pos h1]
        exact ihl (.left ctx c k v r) hsl hmem.1
      · by_cases h2 : k < key
        · rw [deleteGo, if_neg h1, if_pos h2]
          exact ihr (.right ctx c l k v) hsr hmem.2.2
        · exact absurd (le_antisymm (not_lt.mp h2) (not_lt.mp h1)) hmem.2.1

/-! ## Tree-level behaviour of Set and Delete -/

theorem Keys_eq_map_fst_Pairs (t : RBTree K V) : Keys t = (Pairs t).map Prod.fst :=
  keysList_eq_map_inorderP t.root

theorem Set_spec [LinearOrder K] (t : RBTree K V) (key : K) (value : V) (t' : RBTree K V)
    (hs : ordered t.root) (h : Set t key value = some t') :
    Pairs t' = linsert key value (Pairs t) ∧
      t'.size = t.size + (if key ∈ Keys t then 0 else 1) := by
  unfold Set at h
  cases hroot : t.root with
  | nil =>
      rw [hroot, Option.some.injEq] at h
      subst h
      simp [Pairs, inorderP, linsert, hroot, Keys, keysList]
  | node c l k v r =>
      rw [hroot] at h
      dsimp only [] at h
      obtain ⟨res, hsg⟩ : ∃ res, setGo key value (RBNode.node c l k v r) RBCtx.top = some res := by
        rcases hres : setGo key value (RBNode.node c l k v r) RBCtx.top with _ | res
        · rw [hres] at h; cases h
        · exact ⟨res, rfl⟩
      obtain ⟨r0, b⟩ := res
      rw [hsg] at h
      try dsimp only [] at h
      rw [ordered, hroot] at hs
      obtain ⟨hio, hb⟩ := setGo_spec key value (RBNode.node c l k v r) RBCtx.top r0 b hs hsg
      simp only [ctxL, ctxR, List.append_nil, List.nil_append] at hio
      cases b with
      | true =>
          rw [Option.some.injEq] at h
          subst h
          refine ⟨by simpa [Pairs, hroot] using hio, ?_⟩
          have : key ∉ Keys t := by rw [Keys, hroot]; exact hb.mp rfl
          simp [this]
      | false =>
          rw [Option.some.injEq] at h
          subst h
          refine ⟨by simpa [Pairs, hroot] using hio, ?_⟩
          have : key ∈ Keys t := by
            rw [Keys, hroot]
            by_contra hnot
            exact absurd (hb.mpr hnot) (by simp)
          simp [this]

theorem Delete_spec [LinearOrder K] (t : RBTree K V) (key : K) (t' : RBTree K V) (b : Bool)
    (hs : ordered t.root) (h : Delete t key = some (t', b)) :
    Pairs t' = eraseKeyP key (Pairs t) ∧ (b = true ↔ key ∈ Keys t) ∧
      t'.size = t.size - (if key ∈ Keys t then 1 else 0) := by
  unfold Delete at h
  obtain ⟨res, hdg⟩ : ∃ res, deleteGo key t.root RBCtx.top = some res := by
    rcases hres : deleteGo key t.root RBCtx.top with _ | res
    · rw [hres] at h; cases h
    · exact ⟨res, rfl⟩
  obtain ⟨r0, b0⟩ := res
  rw [hdg] at h
  try dsimp only [] at h
  obtain ⟨hio, hb⟩ := deleteGo_spec key t.root RBCtx.top r0 b0 hs hdg
  simp only [ctxL, ctxR, List.append_nil, List.nil_append] at hio
  cases b0 with
  | true =>
      rw [Option.some.injEq, Prod.mk.injEq] at h
      obtain ⟨rfl, rfl⟩ := h
      have hmem : key ∈ Keys t := hb.mp rfl
      refine ⟨by simpa [Pairs] using hio, by simp [hmem], by simp [hmem]⟩
  | false =>
      rw [Option.some.injEq, Prod.mk.injEq] at h
      obtain ⟨rfl, rfl⟩ := h
      have hmem : key ∉ Keys t := by
        by_contra hcon
        exact absurd (hb.mpr hcon) (by simp)
      refine ⟨by simpa [Pairs] using hio, by simp [hmem], by simp [hmem]⟩

theorem Delete_notfound [LinearOrder K] (t : RBTree K V) (key : K)
    (hs : ordered t.root) (hmem : key ∉ Keys t) :
    Delete t key = some (t, false) := by
  unfold Delete
  rw [deleteGo_notfound key t.root RBCtx.top hs hmem]
  rfl

/-! ## Invariant preservation along operation sequences -/

/-- The state invariant carried across completed operations: BST order of the
in-order key sequence, and the `size` field agreeing with the number of stored
pairs. -/
def Good [LinearOrder K] (t : RBTree K V) : Prop :=
  ordered t.root ∧ t.size = ((Pairs t).length : Int)

theorem good_empty [LinearOrder K] : Good (empty : RBTree K V) := by
  constructor <;> simp [empty, ordered, keysList, Pairs, inorderP]

theorem keys_sorted_of_ordered [LinearOrder K] (t : RBTree K V) (h : ordered t.root) :
    (Keys t).Sorted (· < ·) := h

theorem applyOp_good [LinearOrder K] (t : RBTree K V) (op : Op K V) (t' : RBTree K V)
    (hg : Good t) (h : applyOp t op = some t') : Good t' := by
  obtain ⟨hord, hsize⟩ := hg
  cases op with
  | set k v =>
      obtain ⟨hp, hsz⟩ := Set_spec t k v t' hord h
      have hfst : (Pairs t').map Prod.fst = insertK k (Keys t) := by
        rw [hp, map_fst_linsert, Keys_eq_map_fst_Pairs]
      constructor
      · show (keysList t'.root).Sorted (· < ·)
        rw [keysList_eq_map_inorderP]
        show ((Pairs t').map Prod.fst).Sorted (· < ·)
        rw [hfst]
        exact insertK_sorted k _ hord
      · have h1 : (Pairs t').length = (insertK k (Keys t)).length := by
          rw [← List.length_map (Pairs t') Prod.fst, hfst]
        have h3 : (Keys t).length = (Pairs t).length := by
          rw [Keys_eq_map_fst_Pairs, List.length_map]
        by_cases hmem : k ∈ Keys t
        · have h2 := insertK_length_of_mem k (Keys t) hord hmem
          rw [hsz, hsize, if_pos hmem, h1]
          omega
        · have h2 := insertK_length_of_not_mem k (Keys t) hmem
          rw [hsz, hsize, if_neg hmem, h1]
          omega
  | del k =>
      simp only [applyOp, Option.map_eq_some'] at h
      obtain ⟨⟨t1, b⟩, hdel, heq⟩ := h
      rw [show t1 = t' from by cases heq; rfl] at hdel
      obtain ⟨hp, _hb, hsz⟩ := Delete_spec t k t' b hord hdel
      have hfst : (Pairs t').map Prod.fst = eraseK k (Keys t) := by
        rw [hp, map_fst_eraseKeyP, Keys_eq_map_fst_Pairs]
      constructor
      · show (keysList t'.root).Sorted (· < ·)
        rw [keysList_eq_map_inorderP]
        show ((Pairs t').map Prod.fst).Sorted (· < ·)
        rw [hfst]
        exact eraseK_sorted k _ hord
      · have h1 : (Pairs t').length = (eraseK k (Keys t)).length := by
          rw [← List.length_map (Pairs t') Prod.fst, hfst]
        have h3 : (Keys t).length = (Pairs t).length := by
          rw [Keys_eq_map_fst_Pairs, List.length_map]
        by_cases hmem : k ∈ Keys t
        · have h2 := eraseK_length_of_mem k (Keys t) hmem
          rw [hsz, hsize, if_pos hmem, h1]
          omega
        · have h2 : eraseK k (Keys t) = Keys t := eraseK_of_not_mem k _ hmem
          rw [hsz, hsize, if_neg hmem, h1, h2]
          omega

theorem foldl_bind_none [LinearOrder K] (ops : List (Op K V)) :
    ops.foldl (fun acc op => acc.bind (applyOp · op)) none = none := by
  induction ops with
  | nil => rfl
  | cons op rest ih => simpa using ih

theorem applyOps_from_good [LinearOrder K] :
    ∀ (ops : List (Op K V)) (t0 t : RBTree K V), Good t0 →
      ops.foldl (fun acc op => acc.bind (applyOp · op)) (some t0) = some t → Good t := by
  intro ops
  induction ops with
  | nil =>
      intro t0 t hg h
      simp only [List.foldl_nil, Option.some.injEq] at h
      exact h ▸ hg
  | cons op rest ih =>
      intro t0 t hg h
      rw [List.foldl_cons] at h
      cases hstep : applyOp t0 op with
      | none =>
          rw [show (some t0).bind (applyOp · op) = none by simpa using hstep,
            foldl_bind_none] at h
          cases h
      | some t1 =>
          rw [show (some t0).bind (applyOp · op) = some t1 by simpa using hstep] at h
          exact ih t1 t (applyOp_good t0 op t1 hg hstep) h

theorem applyOps_good [LinearOrder K] (ops : List (Op K V)) (t : RBTree K V)
    (h : applyOps ops = some t) : Good t :=
  applyOps_from_good ops empty t good_empty h

theorem runTrace_counts [LinearOrder K] :
    ∀ (ops : List (Op K V)) (t : RBTree K V) (i d : Nat) (t' : RBTree K V) (i' d' : Nat),
      Good t → runTrace ops t i d = some (t', i', d') →
      Good t' ∧ t'.size - ((i' : Int) - d') = t.size - ((i : Int) - d) := by
  intro ops
  induction ops with
  | nil =>
      intro t i d t' i' d' hg h
      simp only [runTrace, Option.some.injEq, Prod.mk.injEq] at h
      obtain ⟨rfl, rfl, rfl⟩ := h
      exact ⟨hg, rfl⟩
  | cons op rest ih =>
      intro t i d t' i' d' hg h
      cases op with
      | set k v =>
          rw [runTrace] at h
          cases hset : Set t k v with
          | none => rw [hset] at h; cases h
          | some t1 =>
              rw [hset] at h
              have hg1 : Good t1 := applyOp_good t (.set k v) t1 hg hset
              obtain ⟨hgood, heq⟩ := ih t1 _ _ t' i' d' hg1 h
              refine ⟨hgood, ?_⟩
              rw [heq]
              obtain ⟨_, hsz⟩ := Set_spec t k v t1 hg.1 hset
              have hkeq : (k ∈ keysList t.root) = (k ∈ Keys t) := rfl
              by_cases hmem : k ∈ Keys t
              · rw [hsz]
                simp only [hkeq, hmem, if_pos, if_true]
                push_cast
                ring
              · rw [hsz]
                rw [if_neg hmem, if_neg (hkeq ▸ hmem)]
                push_cast
                ring
      | del k =>
          rw [runTrace] at h
          cases hdel : Delete t k with
          | none => rw [hdel] at h; cases h
          | some res =>
              obtain ⟨t1, b⟩ := res
              rw [hdel] at h
              have hg1 : Good t1 := by
                refine applyOp_good t (.del k) t1 hg ?_
                simp [applyOp, hdel]
              obtain ⟨hgood, heq⟩ := ih t1 _ _ t' i' d' hg1 h
              refine ⟨hgood, ?_⟩
              rw [heq]
              obtain ⟨_, hb, hsz⟩ := Delete_spec t k t1 b hg.1 hdel
              cases b with
              | true =>
                  have hmem : k ∈ Keys t := hb.mp rfl
                  rw [hsz, if_pos hmem]
                  simp only [if_true]
                  try push_cast
                  try ring
              | false =>
                  have hmem : k ∉ Keys t := fun hc => by
                    have := hb.mpr hc
                    cases this
                  rw [hsz, if_neg hmem]
                  simp only [Bool.false_eq_true, if_false]
                  try push_cast
                  try ring

/-! ## Value replacement on an existing key -/

/-- The effect of `Set` on a present key: descend by the same comparisons and
overwrite only the stored value (`n.value = value`, red_black_tree.go line 105). -/
def replaceVal [LinearOrder K] (key : K) (value : V) : RBNode K V → RBNode K V
  | .nil => .nil
  | .node c l k v r =>
      if key < k then .node c (replaceVal key value l) k v r
      else if k < key then .node c l k v (replaceVal key value r)
      else .node c l k value r

/-- Erase the stored values, keeping structure, colors and keys: the part of
the tree that `Set` on an existing key must not change. -/
def skel : RBNode K V → RBNode K Unit
  | .nil => .nil
  | .node c l k _ r => .node c (skel l) k () (skel r)

theorem skel_replaceVal [LinearOrder K] (key : K) (value : V) (n : RBNode K V) :
    skel (replaceVal key value n) = skel n := by
  induction n with
  | nil => rfl
  | node c l k v r ihl ihr =>
      by_cases h1 : key < k <;> by_cases h2 : k < key <;>
        simp [replaceVal, skel, h1, h2, ihl, ihr]

theorem keysList_replaceVal [LinearOrder K] (key : K) (value : V) (n : RBNode K V) :
    keysList (replaceVal key value n) = keysList n := by
  induction n with
  | nil => rfl
  | node c l k v r ihl ihr =>
      by_cases h1 : key < k <;> by_cases h2 : k < key <;>
        simp [replaceVal, keysList, h1, h2, ihl, ihr]

theorem getGo_replaceVal [LinearOrder K] (key : K) (value : V) (n : RBNode K V)
    (hs : (keysList n).Sorted (· < ·)) (hmem : key ∈ keysList n) :
    getGo key (replaceVal key value n) = some value := by
  induction n with
  | nil => simp [keysList] at hmem
  | node c l k v r ihl ihr =>
      obtain ⟨hsl, hsr, hbl, hbr⟩ := sorted_node_facts hs
      rw [keysList] at hmem
      simp only [List.mem_append, List.mem_cons] at hmem
      by_cases h1 : key < k
      · have hmeml : key ∈ keysList l := by
          rcases hmem with hm | hm | hm
          · exact hm
          · exact absurd (hm ▸ h1) (lt_irrefl _)
          · exact absurd (h1.trans (hbr key hm)) (lt_irrefl _)
        rw [replaceVal, if_pos h1, getGo, if_pos h1]
        exact ihl hsl hmeml
      · by_cases h2 : k < key
        · have hmemr : key ∈ keysList r := by
            rcases hmem with hm | hm | hm
            · exact absurd ((hbl key hm).trans h2) (lt_irrefl _)
            · exact absurd (hm ▸ h2) (lt_irrefl _)
            · exact hm
          rw [replaceVal, if_neg h1, if_pos h2, getGo, if_neg h1, if_pos h2]
          exact ihr hsr hmemr
        · rw [replaceVal, if_neg h1, if_neg h2, getGo, if_neg h1, if_neg h2]

theorem setGo_found [LinearOrder K] (key : K) (value : V) :
    ∀ (n : RBNode K V) (ctx : RBCtx K V),
      (keysList n).Sorted (· < ·) → key ∈ keysList n →
      setGo key value n ctx = some (plug ctx (replaceVal key value n), false) := by
  intro n
  induction n with
  | nil => intro ctx _ hmem; simp [keysList] at hmem
  | node c l k v r ihl ihr =>
      intro ctx hs hmem
      obtain ⟨hsl, hsr, hbl, hbr⟩ := sorted_node_facts hs
      rw [keysList] at hmem
      simp only [List.mem_append, List.mem_cons] at hmem
      by_cases h1 : key < k
      · have hmeml : key ∈ keysList l := by
          rcases hmem with hm | hm | hm
          · exact hm
          · exact absurd (hm ▸ h1) (lt_irrefl _)
          · exact absurd (h1.trans (hbr key hm)) (lt_irrefl _)
        rw [setGo, if_pos h1, ihl (.left ctx c k v r) hsl hmeml, replaceVal, if_pos h1]
        rfl
      · by_cases h2 : k < key
        · have hmemr : key ∈ keysList r := by
            rcases hmem with hm | hm | hm
            · exact absurd ((hbl key hm).trans h2) (lt_irrefl _)
            · exact absurd (hm ▸ h2) (lt_irrefl _)
            · exact hm
          rw [setGo, if_neg h1, if_pos h2, ihr (.right ctx c l k v) hsr hmemr,
            replaceVal, if_neg h1, if_pos h2]
          rfl
        · rw [setGo, if_neg h1, if_neg h2, replaceVal, if_neg h1, if_neg h2]

theorem Set_existing [LinearOrder K] (t : RBTree K V) (key : K) (value : V)
    (hs : (Keys t).Sorted (· < ·)) (hmem : key ∈ Keys t) :
    Set t key value = some ⟨replaceVal key value t.root, t.size⟩ := by
  unfold Set
  cases hroot : t.root with
  | nil => rw [Keys, hroot] at hmem; simp [keysList] at hmem
  | node c l k v r =>
      rw [Keys, hroot] at hmem
      have hs' : (keysList (RBNode.node c l k v r)).Sorted (· < ·) := by
        rw [← hroot]; exact hs
      dsimp only []
      rw [setGo_found key value (RBNode.node c l k v r) RBCtx.top hs' hmem]
      simp [plug]

/-! ## Claim theorems: C1, C2, C5, C6, C7 -/

/-- Keys passed to `Set` across an operation sequence. -/
def setKeys : List (Op K V) → List K :=
  List.filterMap (fun op => match op with | .set k _ => some k | .del _ => none)

/-- The number of distinct keys ever passed to `Set`. -/
def distinctSetCount [DecidableEq K] (ops : List (Op K V)) : Nat :=
  (setKeys ops).dedup.length

/-- The failing input for C1: insert 1,2,3,4 and delete 1.  The deleted node is
a black leaf, so the spliced-in replacement child is absent. -/
def c1ops : List (Op Int Int) := [.set 1 0, .set 2 0, .set 3 0, .set 4 0, .del 1]

/-- **C1**: the delete fixup does NOT operate on the conceptual sentinel: the
source guards the fixup call with `y.color == black && x != nil` and skips it
entirely when the replacement child `x` is nil.  Evaluating the code at the
failing input: after `Set 1..4; Delete 1` the root is black and no red node
has a red child, but `bhChk` reports that the equal-black-count invariant (c)
is violated, contradicting the claim that the invariants hold after every
completed mutating operation. -/
theorem claim_C1_code_bug :
    (applyOps c1ops).map
        (fun t => (rootBlackOrEmpty t.root, rrOK t.root, bhChk t.root))
      = some (true, true, none) := by
  rfl

/-- The counterexample input for C2: Set 1, Delete 1, Set 1 again. -/
def c2ops : List (Op Int Int) := [.set 1 7, .del 1, .set 1 7]

/-- **C2, counterexample**: after `Set 1; Delete 1; Set 1`, `Len()` is 1, the
number of distinct keys ever passed to `Set` is 1, and the number of `Delete`
calls that returned true is 1 — so the claim's equality `Len = distinct Sets
minus successful Deletes` reads `1 = 1 - 1`, which is false. -/
theorem claim_C2_counterexample :
    (runTrace c2ops empty 0 0).map
        (fun x => (Len x.1, distinctSetCount c2ops, x.2.2)) = some (1, 1, 1) ∧
      (runTrace c2ops empty 0 0).map
        (fun x => decide (Len x.1 = (distinctSetCount c2ops : Int) - (x.2.2 : Int)))
        = some false := by
  constructor <;> rfl

/-- **C2 (amended)**: for every operation sequence run from the empty tree that
completes, `Len()` equals the number of nodes reachable from the root, and
equals the number of `Set` calls that inserted a key absent at call time minus
the number of `Delete` calls that returned true. -/
theorem claim_C2_size_invariant [LinearOrder K] (ops : List (Op K V))
    (t : RBTree K V) (i d : Nat) (h : runTrace ops empty 0 0 = some (t, i, d)) :
    Len t = (cnt t.root : Int) ∧ Len t = (i : Int) - (d : Int) := by
  obtain ⟨hg, heq⟩ := runTrace_counts ops empty 0 0 t i d good_empty h
  have hsz : t.size = ((Pairs t).length : Int) := hg.2
  constructor
  · rw [Len, hsz, cnt_eq_length_inorderP]
    rfl
  · rw [Len]
    simp only [empty, Nat.cast_zero, sub_zero] at heq
    omega

theorem claim_C2_size_invariant_witness :
    runTrace c2ops empty 0 0 = some ((runTrace c2ops empty 0 0).getD (empty, 0, 0)) ∧
      Len ((runTrace c2ops empty 0 0).getD (empty, 0, 0)).1
          = (cnt ((runTrace c2ops empty 0 0).getD (empty, 0, 0)).1.root : Int) := by
  refine ⟨by rfl, ?_⟩
  exact (claim_C2_size_invariant c2ops _ _ _ (by rfl)).1

/-- The spec's concrete scenario: insert 5,2,8,1,7,3 then delete 2. -/
def c5ops : List (Op Int Int) :=
  [.set 5 0, .set 2 0, .set 8 0, .set 1 0, .set 7 0, .set 3 0, .del 2]

/-- **C5**: after every completed sequence of `Set`/`Delete` operations from
the empty tree, `Keys()` is strictly ascending (BST order holds and no two
stored keys are equal). -/
theorem claim_C5_order_invariant [LinearOrder K] (ops : List (Op K V))
    (t : RBTree K V) (h : applyOps ops = some t) : (Keys t).Sorted (· < ·) :=
  (applyOps_good ops t h).1

theorem claim_C5_order_invariant_witness :
    applyOps c5ops = some ((applyOps c5ops).getD empty) ∧
      (Keys ((applyOps c5ops).getD empty)).Sorted (· < ·) :=
  ⟨by rfl, claim_C5_order_invariant c5ops _ (by rfl)⟩

/-- **C6**: `Set` on a key already present replaces the stored value in place
and changes nothing else: the result is exactly `replaceVal` on the root with
the same size, which keeps the node structure and colors (`skel`), `Keys()`
and `Len()` unchanged, and makes `Get` return the new value. -/
theorem claim_C6_set_existing [LinearOrder K] (t : RBTree K V) (key : K) (value : V)
    (hs : (Keys t).Sorted (· < ·)) (hmem : key ∈ Keys t) :
    Set t key value = some ⟨replaceVal key value t.root, t.size⟩ ∧
      skel (replaceVal key value t.root) = skel t.root ∧
      Keys (⟨replaceVal key value t.root, t.size⟩ : RBTree K V) = Keys t ∧
      Len (⟨replaceVal key value t.root, t.size⟩ : RBTree K V) = Len t ∧
      Get (⟨replaceVal key value t.root, t.size⟩ : RBTree K V) key = some value :=
  ⟨Set_existing t key value hs hmem,
   skel_replaceVal key value t.root,
   keysList_replaceVal key value t.root,
   rfl,
   getGo_replaceVal key value t.root hs hmem⟩

/-- The spec's concrete scenario for C6: `Set(5,"x")` then `Set(5,"y")` on an
empty tree (values rendered as integers 100, 200). -/
def c6tree : RBTree Int Int := (Set (empty : RBTree Int Int) 5 100).getD empty

theorem claim_C6_set_existing_witness :
    (Keys c6tree).Sorted (· < ·) ∧ 5 ∈ Keys c6tree ∧
      (Set c6tree 5 200 = some ⟨replaceVal 5 200 c6tree.root, c6tree.size⟩ ∧
        skel (replaceVal 5 200 c6tree.root) = skel c6tree.root ∧
        Keys (⟨replaceVal 5 200 c6tree.root, c6tree.size⟩ : RBTree Int Int) = Keys c6tree ∧
        Len (⟨replaceVal 5 200 c6tree.root, c6tree.size⟩ : RBTree Int Int) = Len c6tree ∧
        Get (⟨replaceVal 5 200 c6tree.root, c6tree.size⟩ : RBTree Int Int) 5 = some 200) ∧
      Len (⟨replaceVal 5 200 c6tree.root, c6tree.size⟩ : RBTree Int Int) = 1 :=
  ⟨by decide, by decide, claim_C6_set_existing c6tree 5 200 (by decide) (by decide), by decide⟩

/-- **C7**: `Delete` on an absent key returns the not-found result `false`
(never a fatal outcome: the call completes with `some`) and leaves the tree
completely unchanged — the same `RBTree` value, hence the same `Keys()`,
`Len()` and structure. -/
theorem claim_C7_delete_absent [LinearOrder K] (t : RBTree K V) (key : K)
    (hs : (Keys t).Sorted (· < ·)) (hmem : key ∉ Keys t) :
    Delete t key = some (t, false) :=
  Delete_notfound t key hs hmem

theorem claim_C7_delete_absent_witness :
    (Keys c6tree).Sorted (· < ·) ∧ (99 : Int) ∉ Keys c6tree ∧
      Delete c6tree 99 = some (c6tree, false) :=
  ⟨by decide, by decide, claim_C7_delete_absent c6tree 99 (by decide) (by decide)⟩

/-! ## C9: the lazy stack-based iterator versus the eager key list -/

/-- Keys a popped stack entry will still contribute: its own key followed by
its right subtree (in-order). -/
def stackKeys (stack : List (RBNode K V)) : List K :=
  stack.flatMap (fun n => match n with
    | .nil => []
    | .node _ _ k _ r => k :: keysList r)

/-- Fuel bound for the iterative traversal. -/
def iterMeasure (stack : List (RBNode K V)) (cur : RBNode K V) : Nat :=
  2 * cnt cur + (stack.map (fun n => match n with
    | .nil => 1
    | .node _ _ _ _ r => 2 * cnt r + 1)).sum

/-- The loop of `inOrderKeysIterative` (go1.23 iterator file): an explicit
stack plus the `current` pointer; the inner loop pushes the left spine,
popping yields the node's key and moves to its right subtree, stopping when
`yield` reports that the consumer stopped pulling.  The consumer is a state
machine `yield : s -> K -> Bool x s`; the returned list holds the keys
passed to `yield`. -/
def iterStack {σ : Type} (yield : σ → K → Bool × σ) :
    Nat → List (RBNode K V) → RBNode K V → σ → List K
  | 0, _, _, _ => []                  -- fuel exhausted; never reached (see below)
  | fuel + 1, stack, .node c l k v r, s =>
      -- current != nil: stack = append(stack, current); current = current.left
      iterStack yield fuel (.node c l k v r :: stack) l s
  | _ + 1, [], .nil, _ => []          -- loop condition fails: done
  | fuel + 1, n :: stack, .nil, s =>
      -- pop; yield the key; visit the right subtree
      match n with
      | .nil => []                    -- never pushed: stack entries are nodes
      | .node _ _ k _ r =>
          match yield s k with
          | (true, s') => k :: iterStack yield fuel stack r s'
          | (false, _) => [k]

/-- `inOrderKeysIterative` (go1.23 iterator file). -/
def inOrderKeysIterative {σ : Type} (root : RBNode K V) (yield : σ → K → Bool × σ)
    (s : σ) : List K :=
  match root with
  | .nil => []
  | _ => iterStack yield (2 * cnt root + 1) [] root s

/-- `KeySeq` of the stack-based go1.23 file: wraps the iterative traversal. -/
def KeySeqIterative {σ : Type} (t : RBTree K V) (yield : σ → K → Bool × σ) (s : σ) :
    List K :=
  inOrderKeysIterative t.root yield s

/-- The loop of the pre-materializing `KeySeq` variant: `keys := t.Keys()`
then `for _, k := range keys \x7b if !yield(k) \x7b return \x7d \x7d`. -/
def listYield {σ : Type} (yield : σ → K → Bool × σ) : List K → σ → List K
  | [], _ => []
  | k :: rest, s =>
      match yield s k with
      | (true, s') => k :: listYield yield rest s'
      | (false, _) => [k]

/-- `KeySeq` of the pre-materializing go1.23 file. -/
def KeySeqEager {σ : Type} (t : RBTree K V) (yield : σ → K → Bool × σ) (s : σ) :
    List K :=
  listYield yield (Keys t) s

/-- A consumer that stops pulling after `n` delivered elements. -/
def countConsumer (n : Nat) : Nat → K → Bool × Nat :=
  fun c _ => (decide (c + 1 < n), c + 1)

theorem iterStack_eq_listYield {σ : Type} (yield : σ → K → Bool × σ) :
    ∀ (fuel : Nat) (stack : List (RBNode K V)) (cur : RBNode K V) (s : σ),
      iterMeasure stack cur < fuel →
      (∀ n ∈ stack, n ≠ RBNode.nil) →
      iterStack yield fuel stack cur s
        = listYield yield (keysList cur ++ stackKeys stack) s := by
  intro fuel
  induction fuel with
  | zero => intro stack cur s hm _; exact absurd hm (by omega)
  | succ fuel ih =>
      intro stack cur s hm hstack
      cases cur with
      | node c l k v r =>
          rw [iterStack, ih (RBNode.node c l k v r :: stack) l s ?_ ?_]
          · simp [stackKeys, keysList, List.append_assoc]
          · simp only [iterMeasure, List.map_cons, List.sum_cons, cnt] at hm ⊢
            omega
          · intro n hn
            rcases List.mem_cons.mp hn with rfl | hn
            · simp
            · exact hstack n hn
      | nil =>
          cases stack with
          | nil => simp [iterStack, keysList, stackKeys, listYield]
          | cons n rest =>
              cases n with
              | nil => exact absurd rfl (hstack RBNode.nil (by simp))
              | node nc nl nk nv nr =>
                  rw [iterStack]
                  simp only [keysList, stackKeys, List.flatMap_cons, List.nil_append]
                  cases hy : yield s nk with
                  | mk cont s' =>
                      cases cont with
                      | true =>
                          simp only [listYield, hy]
                          rw [ih rest nr s' ?_ ?_]
                          · rfl
                          · simp only [iterMeasure, List.map_cons, List.sum_cons, cnt] at hm ⊢
                            omega
                          · exact fun n hn => hstack n (List.mem_cons_of_mem _ hn)
                      | false => simp only [listYield, hy]

theorem KeySeq_iterative_eq_eager {σ : Type} (t : RBTree K V) (yield : σ → K → Bool × σ)
    (s : σ) : KeySeqIterative t yield s = KeySeqEager t yield s := by
  unfold KeySeqIterative KeySeqEager inOrderKeysIterative Keys
  cases t.root with
  | nil => simp [keysList, listYield]
  | node c l k v r =>
      rw [iterStack_eq_listYield yield _ [] (RBNode.node c l k v r) s ?_ ?_]
      · simp [stackKeys]
      · simp [iterMeasure]
      · simp

theorem take_listYield :
    ∀ (l : List K) (n c : Nat), c < n →
      listYield (countConsumer n) l c = l.take (n - c) := by
  intro l
  induction l with
  | nil => intro n c _; simp [listYield]
  | cons k rest ih =>
      intro n c hc
      by_cases hlt : c + 1 < n
      · rw [show listYield (countConsumer n) (k :: rest) c
            = k :: listYield (countConsumer n) rest (c + 1) from by
          simp [listYield, countConsumer, hlt]]
        rw [ih n (c + 1) hlt, show n - c = (n - (c + 1)) + 1 from by omega]
        rfl
      · rw [show listYield (countConsumer n) (k :: rest) c = [k] from by
          simp [listYield, countConsumer, hlt]]
        rw [show n - c = 1 from by omega]
        simp

theorem listYield_const_true :
    ∀ l : List K, listYield (fun (u : Unit) _ => (true, u)) l () = l := by
  intro l
  induction l with
  | nil => rfl
  | cons k rest ih => simp [listYield, ih]

/-- Concrete tree for exercising the iterator claims. -/
def c9t : RBTree Int Int :=
  (applyOps [Op.set 3 30, Op.set 1 10, Op.set 2 20, Op.set 4 40]).getD empty

/-- C9: for every tree, the lazy stack-based key iterator (`KeySeqIterative`,
the explicit-stack `inOrderKeysIterative`) and the pre-materializing
implementation (`KeySeqEager`, which walks the eager `Keys()` list) are
observably equivalent for every consumer; with a consumer that never stops
pulling the iterator yields exactly the ascending `Keys t`; and a consumer
that stops pulling after `n ≥ 1` elements receives precisely the first `n`
elements of that sequence. -/
theorem claim_C9_iterator (σ : Type) (t : RBTree K V) (yield : σ → K → Bool × σ)
    (s : σ) (n : Nat) (hn : 1 ≤ n) :
    KeySeqIterative t yield s = KeySeqEager t yield s ∧
    KeySeqIterative t (fun u (_ : K) => (true, u)) () = Keys t ∧
    KeySeqIterative t (countConsumer n) 0 = (Keys t).take n := by
  refine ⟨KeySeq_iterative_eq_eager t yield s, ?_, ?_⟩
  · rw [KeySeq_iterative_eq_eager]
    exact listYield_const_true (Keys t)
  · rw [KeySeq_iterative_eq_eager]
    unfold KeySeqEager
    rw [take_listYield (Keys t) n 0 (by omega)]
    simp

theorem claim_C9_iterator_witness :
    1 ≤ 2 ∧ KeySeqIterative c9t (countConsumer 2) 0 = (Keys c9t).take 2 :=
  ⟨by decide, (claim_C9_iterator Nat c9t (countConsumer 2) 0 2 (by decide)).2.2⟩

end RBT

/-! ## C8: the skip list's RangeBetween (container/skip_list, go1.23 file)

Pointers are modeled as indices into a heap `nodes`; `none` is Go's `nil`.
The header sentinel carries only its forward array.  The comparator is the
`cmp.Compare` of `NewOrderedSkipList`.  A well-formedness predicate `SLWF`
captures what the `Set`/`Delete` code maintains: the level-0 chain from the
header is exactly `chain`, its keys are strictly ascending, and every
forward pointer (at any level up to `sl.level`) from the header or from a
chain node lands strictly later in the chain. -/

namespace skip_list

/-- A skip list node: `key`, `value`, and the per-level forward pointers. -/
structure SLNode (K V : Type) where
  key : K
  value : V
  forward : List (Option Nat)

/-- The `SkipList` struct: heap of nodes, the header's forward array, the
current `level` and the `length` counter. -/
structure SkipList (K V : Type) where
  nodes : List (SLNode K V)
  header : List (Option Nat)
  level : Nat
  length : Int

/-- `cmp.Compare` for an ordered key type (the comparator installed by
`NewOrderedSkipList`). -/
def sCmp {K : Type} [LinearOrder K] (a b : K) : Int :=
  if a < b then -1 else if b < a then 1 else 0

/-- A position in the list: the header sentinel or a heap index. -/
inductive SPtr where
  | header
  | idx (j : Nat)
deriving DecidableEq

variable {K V : Type}

/-- Reading `p.forward[i]`: an out-of-range read or a dangling index is
modeled as `nil` (the implementation never performs either on lists it
builds). -/
def forwardOf (sl : SkipList K V) : SPtr → Nat → Option Nat
  | .header, i => sl.header.getD i none
  | .idx j, i =>
      match sl.nodes.get? j with
      | none => none
      | some nd => nd.forward.getD i none

/-- `chain` lists, in order, the heap indices on the level-0 chain starting
at `p`. -/
def isChain (sl : SkipList K V) : SPtr → List Nat → Bool
  | p, [] => forwardOf sl p 0 == none
  | p, q :: rest => forwardOf sl p 0 == some q && isChain sl (.idx q) rest

/-- The key/value pairs stored along a list of heap indices. -/
def pairsOf (sl : SkipList K V) (l : List Nat) : List (K × V) :=
  l.filterMap (fun j => (sl.nodes.get? j).map (fun nd => (nd.key, nd.value)))

/-- The keys stored along a list of heap indices. -/
def keysOf (sl : SkipList K V) (l : List Nat) : List K :=
  (pairsOf sl l).map Prod.fst

/-- `o` is either nil or points into `target`. -/
def optIn (o : Option Nat) (target : List Nat) : Prop :=
  o.all (fun q => target.contains q) = true

/-- Well-formedness of a skip list whose level-0 chain is `chain`. -/
def SLWF [LinearOrder K] (sl : SkipList K V) (chain : List Nat) : Prop :=
  isChain sl SPtr.header chain = true ∧
  (keysOf sl chain).Pairwise (· < ·) ∧
  chain.length ≤ sl.nodes.length ∧
  (∀ i < sl.level + 1, optIn (forwardOf sl SPtr.header i) chain) ∧
  (∀ jp < chain.length, ∀ i < sl.level + 1,
    optIn (forwardOf sl (SPtr.idx (chain.getD jp 0)) i) (chain.drop (jp + 1)))

/-- The inner `for` of the descent: at level `i`, move forward while the next
node's key is less than `startK`. -/
def advance [LinearOrder K] (sl : SkipList K V) (startK : K) (i : Nat) :
    Nat → SPtr → SPtr
  | 0, p => p
  | fuel + 1, p =>
      match forwardOf sl p i with
      | none => p
      | some q =>
          match sl.nodes.get? q with
          | none => p
          | some nd =>
              if sCmp nd.key startK < 0 then advance sl startK i fuel (.idx q)
              else p

/-- The outer `for i := sl.level; i >= 0; i--` of the descent: `n` is the
number of levels still to visit, so level `n - 1` is visited next. -/
def descend [LinearOrder K] (sl : SkipList K V) (startK : K) (fuel : Nat) :
    Nat → SPtr → SPtr
  | 0, p => p
  | n + 1, p => descend sl startK fuel n (advance sl startK n fuel p)

/-- The scan `for current != nil && sl.compare(current.key, actualEnd) <= 0`:
each visited pair is handed to the visitor `fn`, stopping when it returns
false; the returned list holds the keys passed to `fn`. -/
def scanLoop {σ : Type} [LinearOrder K] (sl : SkipList K V) (fn : σ → K → V → Bool × σ)
    (endK : K) : Nat → Option Nat → σ → List K
  | 0, _, _ => []
  | _ + 1, none, _ => []
  | fuel + 1, some j, s =>
      match sl.nodes.get? j with
      | none => []
      | some nd =>
          if sCmp nd.key endK ≤ 0 then
            match fn s nd.key nd.value with
            | (true, s') => nd.key :: scanLoop sl fn endK fuel (nd.forward.getD 0 none) s'
            | (false, _) => [nd.key]
          else []

/-- `RangeBetween(start, end, fn)`: swap the bounds if `start > end` under
the comparator, descend to the first key `>= actualStart`, then scan while
`key <= actualEnd`. -/
def RangeBetween {σ : Type} [LinearOrder K] (sl : SkipList K V) (start end_ : K)
    (fn : σ → K → V → Bool × σ) (s : σ) : List K :=
  let actualStart := if sCmp start end_ > 0 then end_ else start
  let actualEnd := if sCmp start end_ > 0 then start else end_
  let fuel := sl.nodes.length + 1
  let p := descend sl actualStart fuel (sl.level + 1) SPtr.header
  scanLoop sl fn actualEnd fuel (forwardOf sl p 0) s

/-- The visitor driver over a materialized pair list: hand pairs to `fn`
until it reports false; the result is the list of visited keys. -/
def visitYield {σ : Type} (fn : σ → K → V → Bool × σ) : List (K × V) → σ → List K
  | [], _ => []
  | (k, v) :: rest, s =>
      match fn s k v with
      | (true, s') => k :: visitYield fn rest s'
      | (false, _) => [k]

end skip_list

namespace skip_list

variable {K V : Type}

theorem sCmp_le_zero [LinearOrder K] (a b : K) : sCmp a b ≤ 0 ↔ a ≤ b := by
  unfold sCmp
  by_cases h1 : a < b
  · simp [h1, le_of_lt h1]
  · by_cases h2 : b < a
    · simp [h1, h2, not_le.mpr h2]
    · simp [h1, h2]
      exact not_lt.mp h2

theorem sCmp_lt_zero [LinearOrder K] (a b : K) : sCmp a b < 0 ↔ a < b := by
  unfold sCmp
  by_cases h1 : a < b
  · simp [h1]
  · by_cases h2 : b < a <;> simp [h1, h2]

theorem sCmp_pos [LinearOrder K] (a b : K) : 0 < sCmp a b ↔ b < a := by
  unfold sCmp
  by_cases h1 : a < b
  · simp [h1, asymm h1]
  · by_cases h2 : b < a <;> simp [h1, h2]

theorem isChain_cons (sl : SkipList K V) (p : SPtr) (q : Nat) (rest : List Nat)
    (h : isChain sl p (q :: rest) = true) :
    forwardOf sl p 0 = some q ∧ isChain sl (SPtr.idx q) rest = true := by
  simp only [isChain, Bool.and_eq_true, beq_iff_eq] at h
  exact h

theorem isChain_nil (sl : SkipList K V) (p : SPtr)
    (h : isChain sl p [] = true) : forwardOf sl p 0 = none := by
  simp only [isChain, beq_iff_eq] at h
  exact h

theorem isChain_drop (sl : SkipList K V) :
    ∀ (chain : List Nat) (p : SPtr), isChain sl p chain = true →
      ∀ jp < chain.length,
        isChain sl (SPtr.idx (chain.getD jp 0)) (chain.drop (jp + 1)) = true := by
  intro chain
  induction chain with
  | nil => intro p _ jp hjp; exact absurd hjp (by simp)
  | cons q rest ih =>
      intro p h jp hjp
      obtain ⟨h1, h2⟩ := isChain_cons sl p q rest h
      cases jp with
      | zero => simpa using h2
      | succ jp' =>
          have := ih (SPtr.idx q) h2 jp' (by simpa using hjp)
          simpa using this

end skip_list

namespace skip_list

variable {K V : Type}

/-- Invariant of the descent: `j` chain positions are strictly behind the
cursor `p` (which is the header exactly when `j = 0`, and otherwise the chain
node at position `j - 1`), and every key stored at those positions is below
`startK`. -/
def Inv [LinearOrder K] (sl : SkipList K V) (chain : List Nat) (startK : K)
    (p : SPtr) (j : Nat) : Prop :=
  j ≤ chain.length ∧
  ((p = SPtr.header ∧ j = 0) ∨
    (∃ jp, jp + 1 = j ∧ jp < chain.length ∧ p = SPtr.idx (chain.getD jp 0))) ∧
  (∀ k ∈ keysOf sl (chain.take j), k < startK)

/-- The inner loop at level `i` has finished at `p`: the next node at level
`i`, if any, has key `>= startK`. -/
def advExit [LinearOrder K] (sl : SkipList K V) (startK : K) (i : Nat) (p : SPtr) :
    Prop :=
  ∀ q, forwardOf sl p i = some q →
    ∀ nd, sl.nodes.get? q = some nd → ¬ nd.key < startK

theorem optIn_mem {o : Option Nat} {l : List Nat} (h : optIn o l) {q : Nat}
    (hq : o = some q) : q ∈ l := by
  subst hq
  simp only [optIn, Option.all] at h
  exact List.mem_of_elem_eq_true h

theorem keysOf_append (sl : SkipList K V) (l1 l2 : List Nat) :
    keysOf sl (l1 ++ l2) = keysOf sl l1 ++ keysOf sl l2 := by
  simp [keysOf, pairsOf, List.filterMap_append]

theorem fwd_into [LinearOrder K] (sl : SkipList K V) (chain : List Nat) (startK : K)
    (hwf : SLWF sl chain) (i : Nat) (hi : i ≤ sl.level)
    (p : SPtr) (j : Nat) (hinv : Inv sl chain startK p j)
    (q : Nat) (hq : forwardOf sl p i = some q) : q ∈ chain.drop j := by
  obtain ⟨hj, hpos, hkeys⟩ := hinv
  rcases hpos with ⟨rfl, rfl⟩ | ⟨jp, rfl, hjp, rfl⟩
  · exact optIn_mem (hwf.2.2.2.1 i (by omega)) hq
  · exact optIn_mem (hwf.2.2.2.2 jp hjp i (by omega)) hq

theorem inv_step [LinearOrder K] (sl : SkipList K V) (chain : List Nat) (startK : K)
    (hwf : SLWF sl chain) (i : Nat) (hi : i ≤ sl.level)
    (p : SPtr) (j : Nat) (hinv : Inv sl chain startK p j)
    (q : Nat) (hq : forwardOf sl p i = some q)
    (nd : SLNode K V) (hnd : sl.nodes.get? q = some nd)
    (hlt : nd.key < startK) :
    ∃ j', Inv sl chain startK (SPtr.idx q) j' ∧ j < j' := by
  have hmem : q ∈ chain.drop j :=
    fwd_into sl chain startK hwf i hi p j hinv q hq
  obtain ⟨m, hm, hget⟩ := List.getElem_of_mem hmem
  have hjp : j + m < chain.length := by
    have := List.length_drop j chain
    omega
  have hgc : chain[j + m] = q := by
    rw [List.getElem_drop] at hget
    exact hget
  have hgetD : chain.getD (j + m) 0 = q := by
    rw [List.getD_eq_getElem?_getD, List.getElem?_eq_getElem hjp]
    simpa using hgc
  -- keys at positions up to (and including) j + m are at most nd.key < startK
  have htake : chain.take (j + m + 1) = chain.take (j + m) ++ [q] := by
    rw [List.take_succ, List.getElem?_eq_getElem hjp]
    simp [hgc]
  have hnd' : sl.nodes[q]? = some nd := by
    simpa [List.get?_eq_getElem?] using hnd
  have hkq : keysOf sl [q] = [nd.key] := by
    simp [keysOf, pairsOf, hnd']
  have hsorted := hwf.2.1
  have hdecomp : keysOf sl chain
      = keysOf sl (chain.take (j + m)) ++ [nd.key] ++ keysOf sl (chain.drop (j + m + 1)) := by
    conv_lhs => rw [show chain = chain.take (j + m + 1) ++ chain.drop (j + m + 1) from
      (List.take_append_drop _ _).symm]
    rw [keysOf_append, htake, keysOf_append, hkq]
  rw [hdecomp] at hsorted
  have hpw := (List.pairwise_append.mp (List.pairwise_append.mp hsorted).1).2.2
  -- hpw : ∀ x ∈ keysOf (take (j+m)), ∀ y ∈ [nd.key], x < y
  refine ⟨j + m + 1, ⟨by omega, Or.inr ⟨j + m, rfl, hjp, by rw [hgetD]⟩, ?_⟩, by omega⟩
  intro k hk
  rw [htake, keysOf_append, hkq] at hk
  rcases List.mem_append.mp hk with hk | hk
  · exact lt_trans (hpw k hk nd.key (by simp)) hlt
  · rw [List.mem_singleton.mp hk]
    exact hlt

end skip_list

namespace skip_list

variable {K V : Type}

theorem advance_spec [LinearOrder K] (sl : SkipList K V) (chain : List Nat)
    (startK : K) (hwf : SLWF sl chain) (i : Nat) (hi : i ≤ sl.level) :
    ∀ (fuel : Nat) (p : SPtr) (j : Nat), Inv sl chain startK p j →
      chain.length - j < fuel →
      ∃ j', Inv sl chain startK (advance sl startK i fuel p) j' ∧ j ≤ j' ∧
        advExit sl startK i (advance sl startK i fuel p) := by
  intro fuel
  induction fuel with
  | zero => intro p j _ hf; exact absurd hf (by omega)
  | succ fuel ih =>
      intro p j hinv hf
      rw [advance]
      cases hq : forwardOf sl p i with
      | none =>
          dsimp only
          refine ⟨j, hinv, le_refl j, ?_⟩
          intro q hq' nd _ _
          rw [hq] at hq'
          exact Option.noConfusion hq'
      | some q =>
          dsimp only
          cases hnd : sl.nodes.get? q with
          | none =>
              dsimp only
              refine ⟨j, hinv, le_refl j, ?_⟩
              intro q' hq' nd hnd' _
              rw [hq] at hq'
              cases hq'
              rw [hnd] at hnd'
              exact Option.noConfusion hnd'
          | some nd =>
              dsimp only
              by_cases hlt : sCmp nd.key startK < 0
              · rw [if_pos hlt]
                obtain ⟨j', hinv', hjj'⟩ :=
                  inv_step sl chain startK hwf i hi p j hinv q hq nd hnd
                    ((sCmp_lt_zero nd.key startK).mp hlt)
                have hj1 : j' ≤ chain.length := hinv'.1
                obtain ⟨j'', h1, h2, h3⟩ := ih (SPtr.idx q) j' hinv' (by omega)
                exact ⟨j'', h1, by omega, h3⟩
              · rw [if_neg hlt]
                refine ⟨j, hinv, le_refl j, ?_⟩
                intro q' hq' nd' hnd' hk
                rw [hq] at hq'
                cases hq'
                rw [hnd] at hnd'
                cases hnd'
                exact hlt ((sCmp_lt_zero nd.key startK).mpr hk)

theorem descend_spec [LinearOrder K] (sl : SkipList K V) (chain : List Nat)
    (startK : K) (hwf : SLWF sl chain) (fuel : Nat)
    (hfuel : chain.length < fuel) :
    ∀ (n : Nat), n ≤ sl.level + 1 → ∀ (p : SPtr) (j : Nat),
      Inv sl chain startK p j →
      ∃ j', Inv sl chain startK (descend sl startK fuel n p) j' ∧
        (0 < n → advExit sl startK 0 (descend sl startK fuel n p)) := by
  intro n
  induction n with
  | zero =>
      intro _ p j hinv
      exact ⟨j, hinv, fun h => absurd h (by omega)⟩
  | succ n ih =>
      intro hn p j hinv
      rw [descend]
      obtain ⟨j', hinv', _, hexit⟩ :=
        advance_spec sl chain startK hwf n (by omega) fuel p j hinv (by omega)
      cases n with
      | zero =>
          obtain ⟨j'', hinv'', _⟩ := ih (by omega) _ j' hinv'
          rw [descend] at hinv'' ⊢
          exact ⟨j'', hinv'', fun _ => hexit⟩
      | succ n' =>
          obtain ⟨j'', hinv'', hex⟩ := ih (by omega) _ j' hinv'
          exact ⟨j'', hinv'', fun _ => hex (by omega)⟩

end skip_list

namespace skip_list

variable {K V : Type}

theorem pairsOf_cons_valid (sl : SkipList K V) (q : Nat) (rest : List Nat)
    (nd : SLNode K V) (hnd : sl.nodes.get? q = some nd) :
    pairsOf sl (q :: rest) = (nd.key, nd.value) :: pairsOf sl rest := by
  have hnd' : sl.nodes[q]? = some nd := by
    simpa [List.get?_eq_getElem?] using hnd
  simp [pairsOf, hnd']

theorem pairsOf_cons_dangling (sl : SkipList K V) (q : Nat) (rest : List Nat)
    (hnd : sl.nodes.get? q = none) :
    pairsOf sl (q :: rest) = pairsOf sl rest := by
  have hnd' : sl.nodes[q]? = none := by
    simpa [List.get?_eq_getElem?] using hnd
  simp [pairsOf, hnd']

theorem isChain_forced_nil (sl : SkipList K V) (p : SPtr) (rest : List Nat)
    (hch : isChain sl p rest = true) (hfwd : forwardOf sl p 0 = none) :
    rest = [] := by
  cases rest with
  | nil => rfl
  | cons q rest' =>
      obtain ⟨h1, _⟩ := isChain_cons sl p q rest' hch
      rw [hfwd] at h1
      exact Option.noConfusion h1

theorem scanLoop_spec {σ : Type} [LinearOrder K] (sl : SkipList K V)
    (fn : σ → K → V → Bool × σ) (endK : K) :
    ∀ (rest : List Nat) (fuel : Nat) (p : SPtr) (s : σ),
      isChain sl p rest = true → rest.length < fuel →
      scanLoop sl fn endK fuel (forwardOf sl p 0) s
        = visitYield fn
            ((pairsOf sl rest).takeWhile (fun kv => decide (kv.1 ≤ endK))) s := by
  intro rest
  induction rest with
  | nil =>
      intro fuel p s hch _
      rw [isChain_nil sl p hch]
      cases fuel <;> simp [scanLoop, pairsOf, visitYield]
  | cons q rest' ih =>
      intro fuel p s hch hf
      obtain ⟨h1, h2⟩ := isChain_cons sl p q rest' hch
      rw [h1]
      cases fuel with
      | zero => exact absurd hf (by omega)
      | succ fuel =>
          rw [scanLoop]
          cases hnd : sl.nodes.get? q with
          | none =>
              dsimp only
              have hfwd : forwardOf sl (SPtr.idx q) 0 = none := by
                simp only [forwardOf]
                rw [hnd]
              have := isChain_forced_nil sl (SPtr.idx q) rest' h2 hfwd
              subst this
              rw [pairsOf_cons_dangling sl q [] hnd]
              simp [pairsOf, visitYield]
          | some nd =>
              dsimp only
              rw [pairsOf_cons_valid sl q rest' nd hnd]
              by_cases hle : sCmp nd.key endK ≤ 0
              · rw [if_pos hle]
                have hkle : nd.key ≤ endK := (sCmp_le_zero nd.key endK).mp hle
                rw [List.takeWhile_cons_of_pos (by simpa using hkle)]
                cases hfn : fn s nd.key nd.value with
                | mk cont s' =>
                    cases cont with
                    | true =>
                        dsimp only
                        rw [visitYield, hfn]
                        have hfwd : nd.forward.getD 0 none
                            = forwardOf sl (SPtr.idx q) 0 := by
                          simp only [forwardOf]
                          rw [hnd]
                        rw [hfwd, ih fuel (SPtr.idx q) s' h2 (by simp at hf; omega)]
                    | false =>
                        dsimp only
                        rw [visitYield, hfn]
              · rw [if_neg hle]
                have hkgt : ¬ nd.key ≤ endK := fun h =>
                  hle ((sCmp_le_zero nd.key endK).mpr h)
                rw [List.takeWhile_cons_of_neg (by simpa using hkgt)]
                rfl

theorem filter_eq_takeWhile_sorted [LinearOrder K] (endK : K) :
    ∀ (l : List (K × V)), (l.map Prod.fst).Pairwise (· < ·) →
      l.filter (fun kv => decide (kv.1 ≤ endK))
        = l.takeWhile (fun kv => decide (kv.1 ≤ endK)) := by
  intro l
  induction l with
  | nil => intro _; rfl
  | cons kv rest ih =>
      intro hs
      rw [List.map_cons, List.pairwise_cons] at hs
      by_cases hle : kv.1 ≤ endK
      · rw [List.filter_cons_of_pos (by simpa using hle),
          List.takeWhile_cons_of_pos (by simpa using hle), ih hs.2]
      · rw [List.filter_cons_of_neg (by simpa using hle),
          List.takeWhile_cons_of_neg (by simpa using hle)]
        rw [List.filter_eq_nil]
        intro kv' hkv'
        have : kv.1 < kv'.1 := hs.1 kv'.1 (List.mem_map_of_mem Prod.fst hkv')
        simp only [decide_eq_true_eq]
        intro h
        exact hle (le_trans (le_of_lt this) h)

end skip_list

namespace skip_list

variable {K V : Type}

theorem pairsOf_append (sl : SkipList K V) (l1 l2 : List Nat) :
    pairsOf sl (l1 ++ l2) = pairsOf sl l1 ++ pairsOf sl l2 := by
  simp [pairsOf, List.filterMap_append]

theorem RangeBetween_spec {σ : Type} [LinearOrder K] (sl : SkipList K V)
    (chain : List Nat) (hwf : SLWF sl chain) (a b : K) (hab : a ≤ b)
    (fn : σ → K → V → Bool × σ) (s : σ) :
    RangeBetween sl a b fn s
      = visitYield fn ((pairsOf sl chain).filter
          (fun kv => decide (a ≤ kv.1) && decide (kv.1 ≤ b))) s := by
  have hswap : ¬ sCmp a b > 0 := by
    rw [gt_iff_lt, sCmp_pos]
    exact not_lt.mpr hab
  unfold RangeBetween
  simp only [if_neg hswap]
  obtain ⟨j, hinv, hexit⟩ := descend_spec sl chain a hwf (sl.nodes.length + 1)
    (by have := hwf.2.2.1; omega) (sl.level + 1) (le_refl _) SPtr.header 0
    ⟨Nat.zero_le _, Or.inl ⟨rfl, rfl⟩, by simp [keysOf, pairsOf]⟩
  have hexit0 := hexit (by omega)
  have hchd : isChain sl
      (descend sl a (sl.nodes.length + 1) (sl.level + 1) SPtr.header)
      (chain.drop j) = true := by
    obtain ⟨hj, hpos, hkeys⟩ := hinv
    rcases hpos with ⟨hp, hj0⟩ | ⟨jp, hjp1, hjp, hp⟩
    · subst hj0
      rw [hp]
      simpa using hwf.1
    · subst hjp1
      rw [hp]
      exact isChain_drop sl chain SPtr.header hwf.1 jp hjp
  rw [scanLoop_spec sl fn b (chain.drop j) (sl.nodes.length + 1)
    (descend sl a (sl.nodes.length + 1) (sl.level + 1) SPtr.header) s hchd
    (by have h1 := hwf.2.2.1; have h2 := List.length_drop j chain; omega)]
  have hsorted_drop : (keysOf sl (chain.drop j)).Pairwise (· < ·) := by
    have hs := hwf.2.1
    rw [show chain = chain.take j ++ chain.drop j from
      (List.take_append_drop j chain).symm, keysOf_append] at hs
    exact (List.pairwise_append.mp hs).2.1
  have hge : ∀ kv ∈ pairsOf sl (chain.drop j), a ≤ kv.1 := by
    cases hrest : chain.drop j with
    | nil => simp [pairsOf]
    | cons q rest' =>
        rw [hrest] at hchd hsorted_drop
        obtain ⟨hfq, hcr⟩ := isChain_cons sl _ q rest' hchd
        intro kv hkv
        cases hnd : sl.nodes.get? q with
        | none =>
            have hnil := isChain_forced_nil sl (SPtr.idx q) rest' hcr
              (by simp only [forwardOf]; rw [hnd])
            subst hnil
            rw [pairsOf_cons_dangling sl q [] hnd] at hkv
            simp [pairsOf] at hkv
        | some nd =>
            have hka : ¬ nd.key < a := hexit0 q hfq nd hnd
            rw [pairsOf_cons_valid sl q rest' nd hnd] at hkv
            rcases List.mem_cons.mp hkv with rfl | hkv'
            · exact not_lt.mp hka
            · have hkeys : keysOf sl (q :: rest') = nd.key :: keysOf sl rest' := by
                simp only [keysOf]
                rw [pairsOf_cons_valid sl q rest' nd hnd]
                rfl
              rw [hkeys, List.pairwise_cons] at hsorted_drop
              have : nd.key < kv.1 := hsorted_drop.1 kv.1
                (List.mem_map_of_mem Prod.fst hkv')
              exact le_of_lt (lt_of_le_of_lt (not_lt.mp hka) this)
  have h1 : (pairsOf sl (chain.take j)).filter
      (fun kv => decide (a ≤ kv.1) && decide (kv.1 ≤ b)) = [] := by
    rw [List.filter_eq_nil]
    intro kv hkv
    have hlt : kv.1 < a := hinv.2.2 kv.1 (List.mem_map_of_mem Prod.fst hkv)
    simp [not_le.mpr hlt]
  have h2 : (pairsOf sl (chain.drop j)).filter
      (fun kv => decide (a ≤ kv.1) && decide (kv.1 ≤ b))
      = (pairsOf sl (chain.drop j)).takeWhile (fun kv => decide (kv.1 ≤ b)) := by
    have hcongr : (pairsOf sl (chain.drop j)).filter
        (fun kv => decide (a ≤ kv.1) && decide (kv.1 ≤ b))
        = (pairsOf sl (chain.drop j)).filter (fun kv => decide (kv.1 ≤ b)) :=
      List.filter_congr (fun kv hkv => by simp [hge kv hkv])
    rw [hcongr]
    exact filter_eq_takeWhile_sorted b _ hsorted_drop
  conv_rhs => rw [show chain = chain.take j ++ chain.drop j from
    (List.take_append_drop j chain).symm, pairsOf_append, List.filter_append,
    h1, h2, List.nil_append]

theorem RangeBetween_swap {σ : Type} [LinearOrder K] (sl : SkipList K V) (a b : K)
    (hab : a ≤ b) (fn : σ → K → V → Bool × σ) (s : σ) :
    RangeBetween sl b a fn s = RangeBetween sl a b fn s := by
  rcases lt_or_eq_of_le hab with hlt | rfl
  · have h1 : sCmp b a > 0 := by
      rw [gt_iff_lt, sCmp_pos]
      exact hlt
    have h2 : ¬ sCmp a b > 0 := by
      rw [gt_iff_lt, sCmp_pos]
      exact not_lt.mpr hab
    unfold RangeBetween
    simp only [if_pos h1, if_neg h2]
  · rfl

instance decOptIn (o : Option Nat) (l : List Nat) : Decidable (optIn o l) :=
  inferInstanceAs (Decidable (o.all (fun q => l.contains q) = true))

instance decSLWF [LinearOrder K] (sl : SkipList K V) (chain : List Nat) :
    Decidable (SLWF sl chain) :=
  inferInstanceAs (Decidable (isChain sl SPtr.header chain = true ∧
    (keysOf sl chain).Pairwise (· < ·) ∧
    chain.length ≤ sl.nodes.length ∧
    (∀ i < sl.level + 1, optIn (forwardOf sl SPtr.header i) chain) ∧
    (∀ jp < chain.length, ∀ i < sl.level + 1,
      optIn (forwardOf sl (SPtr.idx (chain.getD jp 0)) i) (chain.drop (jp + 1)))))

/-- Concrete two-level skip list with keys 1, 2, 3 for exercising
`RangeBetween`. -/
def c8sl : SkipList Int Int :=
  ⟨[⟨1, 10, [some 1, some 2]⟩, ⟨2, 20, [some 2]⟩, ⟨3, 30, [none, none]⟩],
    [some 0, some 0], 1, 3⟩

/-- C8: on a well-formed skip list whose level-0 chain is `chain`,
`RangeBetween` treats its two bounds as unordered (swapping them when the
first exceeds the second under the comparator), and for `a ≤ b` it hands the
visitor exactly the stored pairs whose keys lie in the inclusive range
`[a, b]`, in ascending key order; the visitor is an arbitrary state machine,
so stopping early when it returns false is part of the `visitYield` driver
semantics on both sides. -/
theorem claim_C8_range_between (σ : Type) [LinearOrder K] (sl : SkipList K V)
    (chain : List Nat) (hwf : SLWF sl chain) (a b : K) (hab : a ≤ b)
    (fn : σ → K → V → Bool × σ) (s : σ) :
    RangeBetween sl a b fn s
      = visitYield fn ((pairsOf sl chain).filter
          (fun kv => decide (a ≤ kv.1) && decide (kv.1 ≤ b))) s ∧
    RangeBetween sl b a fn s = RangeBetween sl a b fn s ∧
    (((pairsOf sl chain).filter
        (fun kv => decide (a ≤ kv.1) && decide (kv.1 ≤ b))).map
      Prod.fst).Pairwise (· < ·) := by
  refine ⟨RangeBetween_spec sl chain hwf a b hab fn s,
    RangeBetween_swap sl a b hab fn s, ?_⟩
  have hs : ((pairsOf sl chain).map Prod.fst).Pairwise (· < ·) := hwf.2.1
  exact List.Pairwise.sublist ((List.filter_sublist _).map Prod.fst) hs

theorem claim_C8_range_between_witness :
    SLWF c8sl [0, 1, 2] ∧ (1 : Int) ≤ 2 ∧
    RangeBetween c8sl (1 : Int) 2 (fun (u : Unit) _ _ => (true, u)) ()
      = visitYield (fun (u : Unit) _ _ => (true, u))
          ((pairsOf c8sl [0, 1, 2]).filter
            (fun kv => decide ((1 : Int) ≤ kv.1) && decide (kv.1 ≤ 2))) () :=
  ⟨by decide, by decide,
    (claim_C8_range_between Unit c8sl [0, 1, 2] (by decide) 1 2 (by decide)
      (fun u _ _ => (true, u)) ()).1⟩

end skip_list

namespace RBT

open RBNode RBCtx

variable {K V : Type}

/-! ## Color/black-height decomposition through a context -/

/-- Color of the node owning the hole (black when the hole is the root). -/
def ctxColor : RBCtx K V → Bool
  | .top => false
  | .left _ c _ _ _ => c
  | .right _ c _ _ _ => c

/-- Black-height bookkeeping of a context: given the black-height of the
subtree filling the hole, the black-height of the whole tree, or `none` if
some sibling subtree is inconsistent with the hole's height. -/
def ctxBH : RBCtx K V → Nat → Option Nat
  | .top, h => some h
  | .left p c _ _ r, h =>
      match bhChk r with
      | some hr => if h = hr then ctxBH p (h + (if c then 0 else 1)) else none
      | none => none
  | .right p c l _ _, h =>
      match bhChk l with
      | some hl => if hl = h then ctxBH p (h + (if c then 0 else 1)) else none
      | none => none

/-- Red-red cleanliness of all context material: sibling subtrees satisfy
`rrOK`, no frame node is red with a red sibling child, and no two consecutive
frame nodes are both red.  (The hole's own color is not constrained.) -/
def ctxOK : RBCtx K V → Bool
  | .top => true
  | .left p c _ _ r => ctxOK p && rrOK r && !(c && isRed r) && !(ctxColor p && c)
  | .right p c l _ _ => ctxOK p && rrOK l && !(c && isRed l) && !(ctxColor p && c)

theorem bhChk_plug : ∀ (ctx : RBCtx K V) (t : RBNode K V),
    bhChk (plug ctx t) = (bhChk t).bind (fun h => ctxBH ctx h) := by
  intro ctx
  induction ctx with
  | top => intro t; cases h : bhChk t <;> simp [plug, ctxBH, h]
  | left p c k v r ih =>
      intro t
      rw [plug, ih]
      cases ht : bhChk t with
      | none => simp [bhChk, ht]
      | some hl =>
          cases hr : bhChk r with
          | none => simp [bhChk, ht, hr, ctxBH]
          | some hr' =>
              by_cases he : hl = hr'
              · simp [bhChk, ht, hr, ctxBH, he]
              · simp [bhChk, ht, hr, ctxBH, he]
  | right p c l k v ih =>
      intro t
      rw [plug, ih]
      cases ht : bhChk t with
      | none => simp [bhChk, ht, ctxBH]
      | some hr'' =>
          cases hl : bhChk l with
          | none => simp [bhChk, ht, hl, ctxBH]
          | some hl' =>
              by_cases he : hl' = hr''
              · simp [bhChk, ht, hl, ctxBH, he]
              · simp [bhChk, ht, hl, ctxBH, he]

theorem rrOK_plug : ∀ (ctx : RBCtx K V) (t : RBNode K V),
    rrOK (plug ctx t) = true ↔
      (ctxOK ctx = true ∧ rrOK t = true ∧
        (ctxColor ctx = true → isRed t = false)) := by
  intro ctx
  induction ctx with
  | top => intro t; simp [plug, ctxOK, ctxColor]
  | left p c k v r ih =>
      intro t
      rw [plug, ih]
      have h1 : isRed (RBNode.node c t k v r) = c := by cases c <;> rfl
      have h2 : ctxColor (RBCtx.left p c k v r) = c := rfl
      have h3 : rrOK (RBNode.node c t k v r)
          = (rrOK t && rrOK r && !(c && (isRed t || isRed r))) := rfl
      have h4 : ctxOK (RBCtx.left p c k v r)
          = (ctxOK p && rrOK r && !(c && isRed r) && !(ctxColor p && c)) := rfl
      rw [h1, h2, h3, h4]
      cases c <;> cases hrt : isRed t <;> cases hrr : isRed r <;>
        cases hcp : ctxColor p <;> simp [hrt, hrr, hcp] <;> tauto
  | right p c l k v ih =>
      intro t
      rw [plug, ih]
      have h1 : isRed (RBNode.node c l k v t) = c := by cases c <;> rfl
      have h2 : ctxColor (RBCtx.right p c l k v) = c := rfl
      have h3 : rrOK (RBNode.node c l k v t)
          = (rrOK l && rrOK t && !(c && (isRed l || isRed t))) := rfl
      have h4 : ctxOK (RBCtx.right p c l k v)
          = (ctxOK p && rrOK l && !(c && isRed l) && !(ctxColor p && c)) := rfl
      rw [h1, h2, h3, h4]
      cases c <;> cases hrt : isRed t <;> cases hrl : isRed l <;>
        cases hcp : ctxColor p <;> simp [hrt, hrl, hcp] <;> tauto

theorem rootBlack_plug_congr : ∀ (ctx : RBCtx K V), ctx ≠ RBCtx.top →
    ∀ (t t' : RBNode K V),
      rootBlackOrEmpty (plug ctx t) = rootBlackOrEmpty (plug ctx t') := by
  intro ctx
  induction ctx with
  | top => intro h; exact absurd rfl h
  | left p c k v r ih =>
      intro _ t t'
      rw [plug, plug]
      cases p with
      | top => simp [plug, rootBlackOrEmpty]
      | left q qc qk qv qr => exact ih (by simp) _ _
      | right q qc ql qk qv => exact ih (by simp) _ _
  | right p c l k v ih =>
      intro _ t t'
      rw [plug, plug]
      cases p with
      | top => simp [plug, rootBlackOrEmpty]
      | left q qc qk qv qr => exact ih (by simp) _ _
      | right q qc ql qk qv => exact ih (by simp) _ _

theorem rrOK_blacken (n : RBNode K V) (h : rrOK n = true) :
    rrOK (blacken n) = true := by
  cases n with
  | nil => rfl
  | node c l k v r =>
      simp only [rrOK, Bool.and_eq_true] at h
      simp [blacken, rrOK, h.1.1, h.1.2]

theorem bhChk_blacken_isSome (n : RBNode K V) (h : (bhChk n).isSome = true) :
    (bhChk (blacken n)).isSome = true := by
  cases n with
  | nil => rfl
  | node c l k v r =>
      rw [bhChk] at h
      rw [blacken, bhChk]
      cases hl : bhChk l <;> cases hr : bhChk r <;> rw [hl, hr] at h <;>
        simp_all <;> split <;> simp_all

theorem rootBlack_blacken (n : RBNode K V) :
    rootBlackOrEmpty (blacken n) = true := by
  cases n <;> simp [blacken, rootBlackOrEmpty]

end RBT

namespace RBT

open RBNode RBCtx

variable {K V : Type}

/-- The outermost context frame (the tree's root node) is black; trivially
true for the empty context.  A red parent then always has a grandparent, so
the `n.parent.parent` dereference in `fixInsert` cannot panic. -/
def ctxRootBlack : RBCtx K V → Bool
  | .top => true
  | .left p c _ _ _ => match p with | .top => !c | _ => ctxRootBlack p
  | .right p c _ _ _ => match p with | .top => !c | _ => ctxRootBlack p

theorem ctxRootBlack_peel_left (p : RBCtx K V) (c : Bool) (k : K) (v : V)
    (r : RBNode K V) (h : ctxRootBlack (RBCtx.left p c k v r) = true) :
    ctxRootBlack p = true := by
  cases p with
  | top => rfl
  | left q qc qk qv qr => exact h
  | right q qc ql qk qv => exact h

theorem ctxRootBlack_peel_right (p : RBCtx K V) (c : Bool) (l : RBNode K V)
    (k : K) (v : V) (h : ctxRootBlack (RBCtx.right p c l k v) = true) :
    ctxRootBlack p = true := by
  cases p with
  | top => rfl
  | left q qc qk qv qr => exact h
  | right q qc ql qk qv => exact h

theorem ctxRootBlack_mk_left (p : RBCtx K V) (k : K) (v : V) (r : RBNode K V)
    (h : ctxRootBlack p = true) :
    ctxRootBlack (RBCtx.left p false k v r) = true := by
  cases p with
  | top => rfl
  | left q qc qk qv qr => exact h
  | right q qc ql qk qv => exact h

theorem ctxRootBlack_mk_right (p : RBCtx K V) (l : RBNode K V) (k : K) (v : V)
    (h : ctxRootBlack p = true) :
    ctxRootBlack (RBCtx.right p false l k v) = true := by
  cases p with
  | top => rfl
  | left q qc qk qv qr => exact h
  | right q qc ql qk qv => exact h

theorem isRed_blacken (m : RBNode K V) : isRed (blacken m) = false := by
  cases m <;> rfl

theorem isRed_node_false (l : RBNode K V) (k : K) (v : V) (r : RBNode K V) :
    isRed (RBNode.node false l k v r) = false := rfl

theorem bhChk_blacken_red (m : RBNode K V) (h : Nat) (hr : isRed m = true)
    (hb : bhChk m = some h) : bhChk (blacken m) = some (h + 1) := by
  cases m with
  | nil => exact absurd hr (by simp [isRed])
  | node c l k v r =>
      cases c with
      | false => exact absurd hr (by simp [isRed])
      | true =>
          rw [bhChk] at hb
          rw [blacken, bhChk]
          cases hl : bhChk l with
          | none => rw [hl] at hb; exact Option.noConfusion hb
          | some hcl =>
              cases hrr : bhChk r with
              | none => rw [hl, hrr] at hb; exact Option.noConfusion hb
              | some hcr =>
                  rw [hl, hrr] at hb
                  dsimp only at hb ⊢
                  by_cases he : hcl = hcr
                  · subst he
                    rw [if_pos rfl] at hb ⊢
                    injection hb with hb
                    simp at hb
                    simp [hb]
                  · rw [if_neg he] at hb
                    exact Option.noConfusion hb

theorem bhChk_node_elim {c : Bool} {l : RBNode K V} {k : K} {v : V}
    {r : RBNode K V} {h : Nat} (hb : bhChk (RBNode.node c l k v r) = some h) :
    ∃ hc, bhChk l = some hc ∧ bhChk r = some hc ∧
      h = hc + (if c then 0 else 1) := by
  rw [bhChk] at hb
  cases hl : bhChk l with
  | none => rw [hl] at hb; exact Option.noConfusion hb
  | some hcl =>
      cases hrr : bhChk r with
      | none => rw [hl, hrr] at hb; exact Option.noConfusion hb
      | some hcr =>
          rw [hl, hrr] at hb
          dsimp only at hb
          by_cases he : hcl = hcr
          · subst he
            rw [if_pos rfl] at hb
            injection hb with hb
            exact ⟨hcl, rfl, rfl, hb.symm⟩
          · rw [if_neg he] at hb
            exact Option.noConfusion hb

theorem bhChk_node_intro {c : Bool} {l : RBNode K V} (k : K) (v : V)
    {r : RBNode K V} {hc : Nat} (hl : bhChk l = some hc) (hr : bhChk r = some hc) :
    bhChk (RBNode.node c l k v r) = some (hc + (if c then 0 else 1)) := by
  rw [bhChk, hl, hr]
  simp

theorem rrOK_red_elim {l : RBNode K V} {k : K} {v : V} {r : RBNode K V}
    (h : rrOK (RBNode.node true l k v r) = true) :
    rrOK l = true ∧ rrOK r = true ∧ isRed l = false ∧ isRed r = false := by
  rw [rrOK] at h
  simp only [Bool.and_eq_true, Bool.not_eq_true', Bool.true_and,
    Bool.or_eq_false_iff] at h
  exact ⟨h.1.1, h.1.2, h.2.1, h.2.2⟩

theorem rrOK_node_intro {c : Bool} {l : RBNode K V} (k : K) (v : V)
    {r : RBNode K V} (hl : rrOK l = true) (hr : rrOK r = true)
    (hc : c = true → isRed l = false ∧ isRed r = false) :
    rrOK (RBNode.node c l k v r) = true := by
  rw [rrOK]
  cases c with
  | false => simp [hl, hr]
  | true => simp [hl, hr, (hc rfl).1, (hc rfl).2]

theorem ctxBH_left_elim {p : RBCtx K V} {c : Bool} {k : K} {v : V}
    {r : RBNode K V} {h H : Nat}
    (hb : ctxBH (RBCtx.left p c k v r) h = some H) :
    bhChk r = some h ∧ ctxBH p (h + (if c then 0 else 1)) = some H := by
  rw [ctxBH] at hb
  cases hr : bhChk r with
  | none => rw [hr] at hb; exact Option.noConfusion hb
  | some hv =>
      rw [hr] at hb
      dsimp only at hb
      by_cases he : h = hv
      · subst he
        rw [if_pos rfl] at hb
        exact ⟨rfl, hb⟩
      · rw [if_neg he] at hb
        exact Option.noConfusion hb

theorem ctxBH_right_elim {p : RBCtx K V} {c : Bool} {l : RBNode K V} {k : K}
    {v : V} {h H : Nat}
    (hb : ctxBH (RBCtx.right p c l k v) h = some H) :
    bhChk l = some h ∧ ctxBH p (h + (if c then 0 else 1)) = some H := by
  rw [ctxBH] at hb
  cases hl : bhChk l with
  | none => rw [hl] at hb; exact Option.noConfusion hb
  | some hv =>
      rw [hl] at hb
      dsimp only at hb
      by_cases he : hv = h
      · subst he
        rw [if_pos rfl] at hb
        exact ⟨rfl, hb⟩
      · rw [if_neg he] at hb
        exact Option.noConfusion hb

theorem ctxBH_left_intro {p : RBCtx K V} (c : Bool) (k : K) (v : V)
    {r : RBNode K V} {h : Nat} (hr : bhChk r = some h) :
    ctxBH (RBCtx.left p c k v r) h = ctxBH p (h + (if c then 0 else 1)) := by
  rw [ctxBH, hr]
  simp

theorem ctxBH_right_intro {p : RBCtx K V} (c : Bool) {l : RBNode K V} (k : K)
    (v : V) {h : Nat} (hl : bhChk l = some h) :
    ctxBH (RBCtx.right p c l k v) h = ctxBH p (h + (if c then 0 else 1)) := by
  rw [ctxBH, hl]
  simp

theorem ctxOK_left_elim {p : RBCtx K V} {c : Bool} {k : K} {v : V}
    {r : RBNode K V} (h : ctxOK (RBCtx.left p c k v r) = true) :
    ctxOK p = true ∧ rrOK r = true ∧ (c = true → isRed r = false) ∧
      (ctxColor p = true → c = false) := by
  rw [ctxOK] at h
  simp only [Bool.and_eq_true, Bool.not_eq_true', Bool.and_eq_false_iff] at h
  rcases h with ⟨⟨⟨h1, h2⟩, h3⟩, h4⟩
  refine ⟨h1, h2, ?_, ?_⟩
  · intro hc
    rcases h3 with h3 | h3
    · exact absurd hc (by simp [h3])
    · exact h3
  · intro hp
    rcases h4 with h4 | h4
    · exact absurd hp (by simp [h4])
    · exact h4

theorem ctxOK_right_elim {p : RBCtx K V} {c : Bool} {l : RBNode K V} {k : K}
    {v : V} (h : ctxOK (RBCtx.right p c l k v) = true) :
    ctxOK p = true ∧ rrOK l = true ∧ (c = true → isRed l = false) ∧
      (ctxColor p = true → c = false) := by
  rw [ctxOK] at h
  simp only [Bool.and_eq_true, Bool.not_eq_true', Bool.and_eq_false_iff] at h
  rcases h with ⟨⟨⟨h1, h2⟩, h3⟩, h4⟩
  refine ⟨h1, h2, ?_, ?_⟩
  · intro hc
    rcases h3 with h3 | h3
    · exact absurd hc (by simp [h3])
    · exact h3
  · intro hp
    rcases h4 with h4 | h4
    · exact absurd hp (by simp [h4])
    · exact h4

theorem isRed_node_cases {m : RBNode K V} (h : isRed m = true) :
    ∃ l k v r, m = RBNode.node true l k v r := by
  cases m with
  | nil => exact absurd h (by simp [isRed])
  | node c l k v r =>
      cases c with
      | false => exact absurd h (by simp [isRed])
      | true => exact ⟨l, k, v, r, rfl⟩

end RBT

namespace RBT

open RBNode RBCtx

variable {K V : Type}

set_option maxHeartbeats 1000000

theorem fixInsert_ok [LinearOrder K] :
    ∀ (fuel : Nat) (ctx : RBCtx K V) (n : RBNode K V) (h H : Nat),
      RBCtx.size ctx < fuel →
      bhChk n = some h → ctxBH ctx h = some H →
      rrOK n = true → isRed n = true →
      ctxOK ctx = true → ctxRootBlack ctx = true →
      ∃ r', fixInsert fuel ctx n = some r' ∧
        rootBlackOrEmpty r' = true ∧ rrOK r' = true ∧
        (bhChk r').isSome = true := by
  intro fuel
  induction fuel with
  | zero => intro ctx n h H hf _ _ _ _ _ _; exact absurd hf (by omega)
  | succ fuel ih =>
      intro ctx n h H hf hbn hctx hrr hred hok hroot
      cases ctx with
      | top =>
          refine ⟨blacken n, by rw [fixInsert], rootBlack_blacken n,
            rrOK_blacken n hrr, bhChk_blacken_isSome n (by rw [hbn]; rfl)⟩
      | left p pc pk pv pr =>
          obtain ⟨hbpr, hctxp⟩ := ctxBH_left_elim hctx
          obtain ⟨hokp, hrrpr, hpcpr, hcolp⟩ := ctxOK_left_elim hok
          cases pc with
          | false =>
              rw [fixInsert.eq_def]
              dsimp only
              rw [if_neg (by simp)]
              refine ⟨_, rfl, rootBlack_blacken _, ?_, ?_⟩
              · apply rrOK_blacken
                rw [rrOK_plug]
                exact ⟨hok, hrr, fun hcc =>
                  absurd hcc (by simp [ctxColor])⟩
              · apply bhChk_blacken_isSome
                rw [bhChk_plug, hbn, Option.some_bind, hctx]
                rfl
          | true =>
              simp only [if_true] at hctxp
              rw [Nat.add_zero] at hctxp
              have hcolp' : ctxColor p = false := by
                cases hcp : ctxColor p
                · rfl
                · exact absurd (hcolp hcp) (by simp)
              have hrootp : ctxRootBlack p = true :=
                ctxRootBlack_peel_left p true pk pv pr hroot
              have hprf : isRed pr = false := hpcpr rfl
              cases p with
              | top => exact absurd hroot (by simp [ctxRootBlack])
              | left g gc gkk gkv gr =>
                  -- parent is grandparent's left child; uncle = gr
                  have hgc : gc = false := hcolp'
                  subst hgc
                  obtain ⟨hbgr, hctxg⟩ := ctxBH_left_elim hctxp
                  simp only [Bool.false_eq_true, if_false] at hctxg
                  obtain ⟨hokg, hrrgr, _, _⟩ := ctxOK_left_elim hokp
                  have hrootg : ctxRootBlack g = true :=
                    ctxRootBlack_peel_left g false gkk gkv gr hrootp
                  rw [fixInsert.eq_def]
                  dsimp only
                  rw [if_pos rfl]
                  cases hgr : isRed gr with
                  | true =>
                      rw [if_pos rfl]
                      have hb1 : bhChk (RBNode.node false n pk pv pr)
                          = some (h + 1) := by
                        rw [bhChk_node_intro pk pv hbn hbpr]
                        rfl
                      have hb2 : bhChk (blacken gr) = some (h + 1) :=
                        bhChk_blacken_red gr h hgr hbgr
                      have hbn' : bhChk (RBNode.node true
                          (RBNode.node false n pk pv pr) gkk gkv (blacken gr))
                          = some (h + 1) := by
                        rw [bhChk_node_intro gkk gkv hb1 hb2]
                        rfl
                      have hrr1 : rrOK (RBNode.node false n pk pv pr) = true :=
                        rrOK_node_intro pk pv hrr hrrpr
                          (fun hc => Bool.noConfusion hc)
                      have hrr' : rrOK (RBNode.node true
                          (RBNode.node false n pk pv pr) gkk gkv (blacken gr))
                          = true :=
                        rrOK_node_intro gkk gkv hrr1 (rrOK_blacken gr hrrgr)
                          (fun _ => ⟨rfl, isRed_blacken gr⟩)
                      exact ih g _ (h + 1) H
                        (by simp [RBCtx.size] at hf ⊢; omega)
                        hbn' hctxg hrr' rfl hokg hrootg
                  | false =>
                      rw [if_neg (by simp [hgr])]
                      rw [show rotateRight (RBNode.node true
                          (RBNode.node false n pk pv pr) gkk gkv gr)
                          = some (RBNode.node false n pk pv
                              (RBNode.node true pr gkk gkv gr)) from rfl]
                      dsimp only
                      have hbsr : bhChk (RBNode.node true pr gkk gkv gr)
                          = some h := by
                        rw [bhChk_node_intro gkk gkv hbpr hbgr]
                        rfl
                      have hrrsr : rrOK (RBNode.node true pr gkk gkv gr)
                          = true :=
                        rrOK_node_intro gkk gkv hrrpr hrrgr
                          (fun _ => ⟨hprf, hgr⟩)
                      have hctx' : ctxBH (RBCtx.left g false pk pv
                          (RBNode.node true pr gkk gkv gr)) h = some H := by
                        rw [ctxBH_left_intro false pk pv hbsr]
                        simpa using hctxg
                      have hok' : ctxOK (RBCtx.left g false pk pv
                          (RBNode.node true pr gkk gkv gr)) = true := by
                        rw [ctxOK]
                        simp [hokg, hrrsr]
                      exact ih _ n h H (by simp [RBCtx.size] at hf ⊢; omega)
                        hbn hctx' hrr hred hok'
                        (ctxRootBlack_mk_left g pk pv _ hrootg)
              | right g gc gl gkk gkv =>
                  -- parent is grandparent's right child; uncle = gl; inner case
                  have hgc : gc = false := hcolp'
                  subst hgc
                  obtain ⟨hbgl, hctxg⟩ := ctxBH_right_elim hctxp
                  simp only [Bool.false_eq_true, if_false] at hctxg
                  obtain ⟨hokg, hrrgl, _, _⟩ := ctxOK_right_elim hokp
                  have hrootg : ctxRootBlack g = true :=
                    ctxRootBlack_peel_right g false gl gkk gkv hrootp
                  rw [fixInsert.eq_def]
                  dsimp only
                  rw [if_pos rfl]
                  cases hgl : isRed gl with
                  | true =>
                      rw [if_pos rfl]
                      have hb1 : bhChk (RBNode.node false n pk pv pr)
                          = some (h + 1) := by
                        rw [bhChk_node_intro pk pv hbn hbpr]
                        rfl
                      have hb2 : bhChk (blacken gl) = some (h + 1) :=
                        bhChk_blacken_red gl h hgl hbgl
                      have hbn' : bhChk (RBNode.node true (blacken gl) gkk gkv
                          (RBNode.node false n pk pv pr)) = some (h + 1) := by
                        rw [bhChk_node_intro gkk gkv hb2 hb1]
                        rfl
                      have hrr1 : rrOK (RBNode.node false n pk pv pr) = true :=
                        rrOK_node_intro pk pv hrr hrrpr
                          (fun hc => Bool.noConfusion hc)
                      have hrr' : rrOK (RBNode.node true (blacken gl) gkk gkv
                          (RBNode.node false n pk pv pr)) = true :=
                        rrOK_node_intro gkk gkv (rrOK_blacken gl hrrgl) hrr1
                          (fun _ => ⟨isRed_blacken gl, rfl⟩)
                      exact ih g _ (h + 1) H
                        (by simp [RBCtx.size] at hf ⊢; omega)
                        hbn' hctxg hrr' rfl hokg hrootg
                  | false =>
                      rw [if_neg (by simp [hgl])]
                      obtain ⟨nl, nk, nv, nr, rfl⟩ := isRed_node_cases hred
                      obtain ⟨hc0, hbnl, hbnr, hh⟩ := bhChk_node_elim hbn
                      simp only [if_true, Nat.add_zero] at hh
                      subst hh
                      obtain ⟨hrrnl, hrrnr, hrnl, hrnr⟩ := rrOK_red_elim hrr
                      dsimp only
                      rw [show rotateRight (RBNode.node true
                          (RBNode.node true nl nk nv nr) pk pv pr)
                          = some (RBNode.node true nl nk nv
                              (RBNode.node true nr pk pv pr)) from rfl]
                      dsimp only
                      rw [show rotateLeft (RBNode.node true gl gkk gkv
                          (RBNode.node false nl nk nv
                                (RBNode.node true nr pk pv pr)))
                          = some (RBNode.node false
                              (RBNode.node true gl gkk gkv nl) nk nv
                              (RBNode.node true nr pk pv pr)) from rfl]
                      dsimp only
                      have hbsr : bhChk (RBNode.node true nr pk pv pr)
                          = some h := by
                        rw [bhChk_node_intro pk pv hbnr hbpr]
                        rfl
                      have hrrsr : rrOK (RBNode.node true nr pk pv pr)
                          = true :=
                        rrOK_node_intro pk pv hrrnr hrrpr
                          (fun _ => ⟨hrnr, hprf⟩)
                      have hbsl : bhChk (RBNode.node true gl gkk gkv nl)
                          = some h := by
                        rw [bhChk_node_intro gkk gkv hbgl hbnl]
                        rfl
                      have hrrsl : rrOK (RBNode.node true gl gkk gkv nl)
                          = true :=
                        rrOK_node_intro gkk gkv hrrgl hrrnl
                          (fun _ => ⟨hgl, hrnl⟩)
                      have hctx' : ctxBH (RBCtx.right g false
                          (RBNode.node true gl gkk gkv nl) nk nv) h
                          = some H := by
                        rw [ctxBH_right_intro false nk nv hbsl]
                        simpa using hctxg
                      have hok' : ctxOK (RBCtx.right g false
                          (RBNode.node true gl gkk gkv nl) nk nv) = true := by
                        rw [ctxOK]
                        simp [hokg, hrrsl]
                      exact ih _ _ h H (by simp [RBCtx.size] at hf ⊢; omega)
                        hbsr hctx' hrrsr rfl hok'
                        (ctxRootBlack_mk_right g _ nk nv hrootg)
      | right p pc pl pk pv =>
          obtain ⟨hbpl, hctxp⟩ := ctxBH_right_elim hctx
          obtain ⟨hokp, hrrpl, hpcpl, hcolp⟩ := ctxOK_right_elim hok
          cases pc with
          | false =>
              rw [fixInsert.eq_def]
              dsimp only
              rw [if_neg (by simp)]
              refine ⟨_, rfl, rootBlack_blacken _, ?_, ?_⟩
              · apply rrOK_blacken
                rw [rrOK_plug]
                exact ⟨hok, hrr, fun hcc =>
                  absurd hcc (by simp [ctxColor])⟩
              · apply bhChk_blacken_isSome
                rw [bhChk_plug, hbn, Option.some_bind, hctx]
                rfl
          | true =>
              simp only [if_true] at hctxp
              rw [Nat.add_zero] at hctxp
              have hcolp' : ctxColor p = false := by
                cases hcp : ctxColor p
                · rfl
                · exact absurd (hcolp hcp) (by simp)
              have hrootp : ctxRootBlack p = true :=
                ctxRootBlack_peel_right p true pl pk pv hroot
              have hplf : isRed pl = false := hpcpl rfl
              cases p with
              | top => exact absurd hroot (by simp [ctxRootBlack])
              | right g gc gl2 gkk gkv =>
                  -- parent is grandparent's right child; uncle = gl2
                  have hgc : gc = false := hcolp'
                  subst hgc
                  obtain ⟨hbgl2, hctxg⟩ := ctxBH_right_elim hctxp
                  simp only [Bool.false_eq_true, if_false] at hctxg
                  obtain ⟨hokg, hrrgl2, _, _⟩ := ctxOK_right_elim hokp
                  have hrootg : ctxRootBlack g = true :=
                    ctxRootBlack_peel_right g false gl2 gkk gkv hrootp
                  rw [fixInsert.eq_def]
                  dsimp only
                  rw [if_pos rfl]
                  cases hgl2 : isRed gl2 with
                  | true =>
                      rw [if_pos rfl]
                      have hb1 : bhChk (RBNode.node false pl pk pv n)
                          = some (h + 1) := by
                        rw [bhChk_node_intro pk pv hbpl hbn]
                        rfl
                      have hb2 : bhChk (blacken gl2) = some (h + 1) :=
                        bhChk_blacken_red gl2 h hgl2 hbgl2
                      have hbn' : bhChk (RBNode.node true (blacken gl2) gkk gkv
                          (RBNode.node false pl pk pv n)) = some (h + 1) := by
                        rw [bhChk_node_intro gkk gkv hb2 hb1]
                        rfl
                      have hrr1 : rrOK (RBNode.node false pl pk pv n) = true :=
                        rrOK_node_intro pk pv hrrpl hrr
                          (fun hc => Bool.noConfusion hc)
                      have hrr' : rrOK (RBNode.node true (blacken gl2) gkk gkv
                          (RBNode.node false pl pk pv n)) = true :=
                        rrOK_node_intro gkk gkv (rrOK_blacken gl2 hrrgl2) hrr1
                          (fun _ => ⟨isRed_blacken gl2, rfl⟩)
                      exact ih g _ (h + 1) H
                        (by simp [RBCtx.size] at hf ⊢; omega)
                        hbn' hctxg hrr' rfl hokg hrootg
                  | false =>
                      rw [if_neg (by simp [hgl2])]
                      rw [show rotateLeft (RBNode.node true gl2 gkk gkv
                          (RBNode.node false pl pk pv n))
                          = some (RBNode.node false
                              (RBNode.node true gl2 gkk gkv pl) pk pv n)
                          from rfl]
                      dsimp only
                      have hbsl : bhChk (RBNode.node true gl2 gkk gkv pl)
                          = some h := by
                        rw [bhChk_node_intro gkk gkv hbgl2 hbpl]
                        rfl
                      have hrrsl : rrOK (RBNode.node true gl2 gkk gkv pl)
                          = true :=
                        rrOK_node_intro gkk gkv hrrgl2 hrrpl
                          (fun _ => ⟨hgl2, hplf⟩)
                      have hctx' : ctxBH (RBCtx.right g false
                          (RBNode.node true gl2 gkk gkv pl) pk pv) h
                          = some H := by
                        rw [ctxBH_right_intro false pk pv hbsl]
                        simpa using hctxg
                      have hok' : ctxOK (RBCtx.right g false
                          (RBNode.node true gl2 gkk gkv pl) pk pv) = true := by
                        rw [ctxOK]
                        simp [hokg, hrrsl]
                      exact ih _ n h H (by simp [RBCtx.size] at hf ⊢; omega)
                        hbn hctx' hrr hred hok'
                        (ctxRootBlack_mk_right g _ pk pv hrootg)
              | left g gc gkk gkv gr =>
                  -- parent is grandparent's left child; uncle = gr; inner case
                  have hgc : gc = false := hcolp'
                  subst hgc
                  obtain ⟨hbgr, hctxg⟩ := ctxBH_left_elim hctxp
                  simp only [Bool.false_eq_true, if_false] at hctxg
                  obtain ⟨hokg, hrrgr, _, _⟩ := ctxOK_left_elim hokp
                  have hrootg : ctxRootBlack g = true :=
                    ctxRootBlack_peel_left g false gkk gkv gr hrootp
                  rw [fixInsert.eq_def]
                  dsimp only
                  rw [if_pos rfl]
                  cases hgr : isRed gr with
                  | true =>
                      rw [if_pos rfl]
                      have hb1 : bhChk (RBNode.node false pl pk pv n)
                          = some (h + 1) := by
                        rw [bhChk_node_intro pk pv hbpl hbn]
                        rfl
                      have hb2 : bhChk (blacken gr) = some (h + 1) :=
                        bhChk_blacken_red gr h hgr hbgr
                      have hbn' : bhChk (RBNode.node true
                          (RBNode.node false pl pk pv n) gkk gkv (blacken gr))
                          = some (h + 1) := by
                        rw [bhChk_node_intro gkk gkv hb1 hb2]
                        rfl
                      have hrr1 : rrOK (RBNode.node false pl pk pv n) = true :=
                        rrOK_node_intro pk pv hrrpl hrr
                          (fun hc => Bool.noConfusion hc)
                      have hrr' : rrOK (RBNode.node true
                          (RBNode.node false pl pk pv n) gkk gkv (blacken gr))
                          = true :=
                        rrOK_node_intro gkk gkv hrr1 (rrOK_blacken gr hrrgr)
                          (fun _ => ⟨rfl, isRed_blacken gr⟩)
                      exact ih g _ (h + 1) H
                        (by simp [RBCtx.size] at hf ⊢; omega)
                        hbn' hctxg hrr' rfl hokg hrootg
                  | false =>
                      rw [if_neg (by simp [hgr])]
                      obtain ⟨nl, nk, nv, nr, rfl⟩ := isRed_node_cases hred
                      obtain ⟨hcn, hbnl, hbnr, hh⟩ := bhChk_node_elim hbn
                      simp only [if_true, Nat.add_zero] at hh
                      subst hh
                      obtain ⟨hrrnl, hrrnr, hrnl, hrnr⟩ := rrOK_red_elim hrr
                      dsimp only
                      rw [show rotateLeft (RBNode.node true pl pk pv
                          (RBNode.node true nl nk nv nr))
                          = some (RBNode.node true
                              (RBNode.node true pl pk pv nl) nk nv nr)
                          from rfl]
                      dsimp only
                      rw [show rotateRight (RBNode.node true
                          (RBNode.node false (RBNode.node true pl pk pv nl)
                                nk nv nr) gkk gkv gr)
                          = some (RBNode.node false
                              (RBNode.node true pl pk pv nl) nk nv
                              (RBNode.node true nr gkk gkv gr)) from rfl]
                      dsimp only
                      have hbsl : bhChk (RBNode.node true pl pk pv nl)
                          = some h := by
                        rw [bhChk_node_intro pk pv hbpl hbnl]
                        rfl
                      have hrrsl : rrOK (RBNode.node true pl pk pv nl)
                          = true :=
                        rrOK_node_intro pk pv hrrpl hrrnl
                          (fun _ => ⟨hplf, hrnl⟩)
                      have hbsr : bhChk (RBNode.node true nr gkk gkv gr)
                          = some h := by
                        rw [bhChk_node_intro gkk gkv hbnr hbgr]
                        rfl
                      have hrrsr : rrOK (RBNode.node true nr gkk gkv gr)
                          = true :=
                        rrOK_node_intro gkk gkv hrrnr hrrgr
                          (fun _ => ⟨hrnr, hgr⟩)
                      have hctx' : ctxBH (RBCtx.left g false nk nv
                          (RBNode.node true nr gkk gkv gr)) h = some H := by
                        rw [ctxBH_left_intro false nk nv hbsr]
                        simpa using hctxg
                      have hok' : ctxOK (RBCtx.left g false nk nv
                          (RBNode.node true nr gkk gkv gr)) = true := by
                        rw [ctxOK]
                        simp [hokg, hrrsr]
                      exact ih _ _ h H (by simp [RBCtx.size] at hf ⊢; omega)
                        hbsl hctx' hrrsl rfl hok'
                        (ctxRootBlack_mk_left g nk nv _ hrootg)

end RBT

namespace RBT

open RBNode RBCtx

variable {K V : Type}

theorem rrOK_node_elim {c : Bool} {l : RBNode K V} {k : K} {v : V}
    {r : RBNode K V} (h : rrOK (RBNode.node c l k v r) = true) :
    rrOK l = true ∧ rrOK r = true ∧
      (c = true → isRed l = false ∧ isRed r = false) := by
  cases c with
  | false =>
      rw [rrOK] at h
      simp only [Bool.and_eq_true] at h
      exact ⟨h.1.1, h.1.2, fun hc => Bool.noConfusion hc⟩
  | true =>
      obtain ⟨h1, h2, h3, h4⟩ := rrOK_red_elim h
      exact ⟨h1, h2, fun _ => ⟨h3, h4⟩⟩

theorem rootBlack_isRed {m : RBNode K V} (h : rootBlackOrEmpty m = true) :
    isRed m = false := by
  cases m with
  | nil => rfl
  | node c l k v r =>
      rw [rootBlackOrEmpty] at h
      simp only [Bool.not_eq_true'] at h
      subst h
      rfl

theorem ctxRootBlack_mk_left_gen (p : RBCtx K V) (c : Bool) (k : K) (v : V)
    (r : RBNode K V) (hp : ctxRootBlack p = true)
    (hc : p = RBCtx.top → c = false) :
    ctxRootBlack (RBCtx.left p c k v r) = true := by
  cases p with
  | top => simp [ctxRootBlack, hc rfl]
  | left q qc qk qv qr => exact hp
  | right q qc ql qk qv => exact hp

theorem ctxRootBlack_mk_right_gen (p : RBCtx K V) (c : Bool) (l : RBNode K V)
    (k : K) (v : V) (hp : ctxRootBlack p = true)
    (hc : p = RBCtx.top → c = false) :
    ctxRootBlack (RBCtx.right p c l k v) = true := by
  cases p with
  | top => simp [ctxRootBlack, hc rfl]
  | left q qc qk qv qr => exact hp
  | right q qc ql qk qv => exact hp

theorem setGo_ok [LinearOrder K] (key : K) (value : V) :
    ∀ (n : RBNode K V) (ctx : RBCtx K V) (h H : Nat),
      bhChk n = some h → ctxBH ctx h = some H →
      rrOK n = true → ctxOK ctx = true → ctxRootBlack ctx = true →
      (ctxColor ctx = true → isRed n = false) →
      rootBlackOrEmpty (plug ctx n) = true →
      ∃ res, setGo key value n ctx = some res ∧
        rootBlackOrEmpty res.1 = true ∧ rrOK res.1 = true ∧
        (bhChk res.1).isSome = true := by
  intro n
  induction n with
  | nil =>
      intro ctx h H hbn hctx hrr hok hroot hcol hrb
      have h0 : h = 0 := by
        rw [bhChk] at hbn
        injection hbn with hbn
        exact hbn.symm
      subst h0
      obtain ⟨r', hfx, hx1, hx2, hx3⟩ := fixInsert_ok (RBCtx.size ctx + 1) ctx
        (RBNode.node true RBNode.nil key value RBNode.nil) 0 H (by omega)
        rfl hctx rfl rfl hok hroot
      refine ⟨(r', true), ?_, hx1, hx2, hx3⟩
      rw [setGo, hfx]
      rfl
  | node c l k v r ihl ihr =>
      intro ctx h H hbn hctx hrr hok hroot hcol hrb
      obtain ⟨hc, hbl, hbr, hh⟩ := bhChk_node_elim hbn
      subst hh
      obtain ⟨hrrl, hrrr, hcred⟩ := rrOK_node_elim hrr
      have hcc : ctxColor ctx = true → c = false := by
        intro hx
        have := hcol hx
        cases c
        · rfl
        · exact Bool.noConfusion this
      have hctop : ctx = RBCtx.top → c = false := by
        intro hx
        subst hx
        have := rootBlack_isRed hrb
        cases c
        · rfl
        · exact Bool.noConfusion this
      rw [setGo]
      by_cases h1 : key < k
      · rw [if_pos h1]
        apply ihl (RBCtx.left ctx c k v r) hc H hbl
        · rw [ctxBH_left_intro c k v hbr]
          exact hctx
        · exact hrrl
        · rw [ctxOK]
          have e1 : (!(c && isRed r)) = true := by
            cases hcb : c
            · rfl
            · simp [(hcred hcb).2]
          have e2 : (!(ctxColor ctx && c)) = true := by
            cases hcb : ctxColor ctx
            · rfl
            · simp [hcc hcb]
          simp [hok, hrrr, e1, e2]
        · exact ctxRootBlack_mk_left_gen ctx c k v r hroot hctop
        · intro hcx
          exact (hcred (by simpa [ctxColor] using hcx)).1
        · rw [show plug (RBCtx.left ctx c k v r) l
            = plug ctx (RBNode.node c l k v r) from rfl]
          exact hrb
      · by_cases h2 : k < key
        · rw [if_neg h1, if_pos h2]
          apply ihr (RBCtx.right ctx c l k v) hc H hbr
          · rw [ctxBH_right_intro c k v hbl]
            exact hctx
          · exact hrrr
          · rw [ctxOK]
            have e1 : (!(c && isRed l)) = true := by
              cases hcb : c
              · rfl
              · simp [(hcred hcb).1]
            have e2 : (!(ctxColor ctx && c)) = true := by
              cases hcb : ctxColor ctx
              · rfl
              · simp [hcc hcb]
            simp [hok, hrrl, e1, e2]
          · exact ctxRootBlack_mk_right_gen ctx c l k v hroot hctop
          · intro hcx
            exact (hcred (by simpa [ctxColor] using hcx)).2
          · rw [show plug (RBCtx.right ctx c l k v) r
              = plug ctx (RBNode.node c l k v r) from rfl]
            exact hrb
        · rw [if_neg h1, if_neg h2]
          refine ⟨(plug ctx (RBNode.node c l k value r), false), rfl, ?_, ?_, ?_⟩
          · have hsw : rootBlackOrEmpty (plug ctx (RBNode.node c l k value r))
                = rootBlackOrEmpty (plug ctx (RBNode.node c l k v r)) := by
              cases ctx with
              | top => rfl
              | left p pc pk pv pr => exact rootBlack_plug_congr _ (by simp) _ _
              | right p pc pl pk pv => exact rootBlack_plug_congr _ (by simp) _ _
            rw [hsw]
            exact hrb
          · rw [rrOK_plug]
            refine ⟨hok, hrr, ?_⟩
            intro hx
            rw [show isRed (RBNode.node c l k value r)
              = isRed (RBNode.node c l k v r) from by cases c <;> rfl]
            exact hcol hx
          · rw [bhChk_plug]
            rw [show bhChk (RBNode.node c l k value r)
              = bhChk (RBNode.node c l k v r) from rfl, hbn, Option.some_bind,
              hctx]
            rfl

theorem Set_ok [LinearOrder K] (t : RBTree K V) (key : K) (value : V)
    (hv : validRB t) : ∃ t', Set t key value = some t' ∧ validRB t' := by
  obtain ⟨hrb, hrr, hbh, hord⟩ := hv
  unfold Set
  cases hroot : t.root with
  | nil =>
      refine ⟨_, rfl, rfl, rfl, rfl, ?_⟩
      simp [ordered, keysList]
  | node c l k v r =>
      have hbh' : (bhChk (RBNode.node c l k v r)).isSome = true := by
        rw [← hroot]
        exact hbh
      obtain ⟨H, hbhs⟩ := Option.isSome_iff_exists.mp hbh'
      obtain ⟨res, hsg, hx1, hx2, hx3⟩ := setGo_ok key value
        (RBNode.node c l k v r) RBCtx.top H H hbhs rfl
        (by rw [← hroot]; exact hrr) rfl rfl (fun hx => Bool.noConfusion hx)
        (by rw [show plug RBCtx.top (RBNode.node c l k v r)
              = RBNode.node c l k v r from rfl, ← hroot]; exact hrb)
      obtain ⟨r0, b⟩ := res
      dsimp only
      rw [hsg]
      have hord' : ordered r0 := by
        have hio := (setGo_spec key value (RBNode.node c l k v r) RBCtx.top r0 b
          (by rw [ordered, hroot] at hord; exact hord) hsg).1
        simp only [ctxL, ctxR, List.append_nil, List.nil_append] at hio
        rw [ordered, keysList_eq_map_inorderP, hio, map_fst_linsert]
        apply insertK_sorted
        rw [← keysList_eq_map_inorderP, ← hroot]
        exact hord
      cases b with
      | true => exact ⟨_, rfl, hx1, hx2, hx3, hord'⟩
      | false => exact ⟨_, rfl, hx1, hx2, hx3, hord'⟩

end RBT

namespace RBT

open RBNode RBCtx

variable {K V : Type}

/-- A black node with a nil left child and a non-nil right child has a red
right child (its black-height forces the child's subtrees to be empty). -/
theorem black_nil_left_red {k : K} {v : V} {r : RBNode K V} {h : Nat}
    (hb : bhChk (RBNode.node false RBNode.nil k v r) = some h)
    (hnn : r.isNil = false) : isRed r = true := by
  obtain ⟨hc, hbl, hbr, hh⟩ := bhChk_node_elim hb
  have hc0 : hc = 0 := by
    rw [bhChk] at hbl
    injection hbl with hbl
    exact hbl.symm
  subst hc0
  cases r with
  | nil => exact Bool.noConfusion hnn
  | node rc rl rk rv rr =>
      obtain ⟨hc', _, _, hh'⟩ := bhChk_node_elim hbr
      cases rc with
      | true => rfl
      | false => simp at hh'
  
/-- Mirror: black node with nil right child and non-nil left child. -/
theorem black_nil_right_red {l : RBNode K V} {k : K} {v : V} {h : Nat}
    (hb : bhChk (RBNode.node false l k v RBNode.nil) = some h)
    (hnn : l.isNil = false) : isRed l = true := by
  obtain ⟨hc, hbl, hbr, hh⟩ := bhChk_node_elim hb
  have hc0 : hc = 0 := by
    rw [bhChk] at hbr
    injection hbr with hbr
    exact hbr.symm
  subst hc0
  cases l with
  | nil => exact Bool.noConfusion hnn
  | node lc ll lk lv lr =>
      obtain ⟨hc', _, _, hh'⟩ := bhChk_node_elim hbl
      cases lc with
      | true => rfl
      | false => simp at hh'

/-- A red `x` exits `fixDelete` immediately (the loop condition fails and the
trailing `x.color = black` recolors it). -/
theorem fixDelete_red_exit (fuel : Nat) (ctx : RBCtx K V) (x : RBNode K V)
    (hf : 0 < fuel) (hx : isRed x = true) :
    ∃ r', fixDelete fuel ctx x = some r' := by
  obtain ⟨xl, xk, xv, xr, rfl⟩ := isRed_node_cases hx
  cases fuel with
  | zero => exact absurd hf (by omega)
  | succ fuel =>
      cases ctx with
      | top => exact ⟨_, rfl⟩
      | left p pc pk pv w => exact ⟨_, rfl⟩
      | right p pc pl pk pv => exact ⟨_, rfl⟩

/-- Along the successor descent from a valid subtree, a black `y` with a
non-nil replacement child has a red replacement child. -/
theorem splitMinGo_red (c : Bool) (l : RBNode K V) (k : K) (v : V)
    (r : RBNode K V) :
    ∀ (h : Nat), bhChk (RBNode.node c l k v r) = some h →
      ∀ cy ky vy x path, splitMinGo c l k v r = (cy, ky, vy, x, path) →
        cy = false → x.isNil = false → isRed x = true := by
  induction l generalizing c k v r with
  | nil =>
      intro h hb cy ky vy x path hsm hcy hnn
      simp only [splitMinGo, Prod.mk.injEq] at hsm
      obtain ⟨rfl, rfl, rfl, rfl, rfl⟩ := hsm
      subst hcy
      exact black_nil_left_red hb hnn
  | node c' l' k' v' r' ihl ihr =>
      intro h hb cy ky vy x path hsm hcy hnn
      obtain ⟨hc, hbl, hbr, hh⟩ := bhChk_node_elim hb
      obtain ⟨qc, qk, qv, qx, qpath, hq⟩ :
          ∃ a b u d e, splitMinGo c' l' k' v' r' = (a, b, u, d, e) :=
        ⟨_, _, _, _, _, rfl⟩
      rw [splitMinGo] at hsm
      simp only [hq, Prod.mk.injEq] at hsm
      obtain ⟨rfl, rfl, rfl, rfl, rfl⟩ := hsm
      exact ihl c' k' v' r' hc hbl qc qk qv qx qpath hq hcy hnn

theorem delNode_some [LinearOrder K] (ctx : RBCtx K V) (c : Bool)
    (l : RBNode K V) (k : K) (v : V) (r : RBNode K V) (h : Nat)
    (hb : bhChk (RBNode.node c l k v r) = some h) :
    ∃ res, delNode ctx c l k v r = some res := by
  cases l with
  | nil =>
      rw [delNode]
      by_cases hcnd : c = false ∧ RBNode.isNil r = false
      · rw [if_pos hcnd]
        obtain ⟨rfl, hnn⟩ := hcnd
        exact fixDelete_red_exit _ ctx r (by omega)
          (black_nil_left_red hb hnn)
      · rw [if_neg hcnd]
        exact ⟨_, rfl⟩
  | node lc ll lk lv lr =>
      cases r with
      | nil =>
          rw [delNode]
          by_cases hcnd : c = false ∧
              RBNode.isNil (RBNode.node lc ll lk lv lr) = false
          · rw [if_pos hcnd]
            obtain ⟨rfl, hnn⟩ := hcnd
            exact fixDelete_red_exit _ ctx _ (by omega)
              (black_nil_right_red hb hnn)
          · rw [if_neg hcnd]
            exact ⟨_, rfl⟩
      | node rc rl rk rv rr =>
          rw [delNode]
          obtain ⟨cy, ky, vy, x, path, hsm⟩ :
              ∃ a b u d e, splitMinGo rc rl rk rv rr = (a, b, u, d, e) :=
            ⟨_, _, _, _, _, rfl⟩
          rw [hsm]
          dsimp only
          obtain ⟨hc, hbl, hbr, hh⟩ := bhChk_node_elim hb
          by_cases hcnd : cy = false ∧ RBNode.isNil x = false
          · rw [if_pos hcnd]
            exact fixDelete_red_exit _ _ x (by omega)
              (splitMinGo_red rc rl rk rv rr hc hbr cy ky vy x path hsm
                hcnd.1 hcnd.2)
          · rw [if_neg hcnd]
            exact ⟨_, rfl⟩

theorem deleteGo_some [LinearOrder K] (key : K) :
    ∀ (n : RBNode K V) (ctx : RBCtx K V) (h : Nat), bhChk n = some h →
      ∃ res, deleteGo key n ctx = some res := by
  intro n
  induction n with
  | nil => intro ctx h _; exact ⟨_, rfl⟩
  | node c l k v r ihl ihr =>
      intro ctx h hb
      obtain ⟨hc, hbl, hbr, _⟩ := bhChk_node_elim hb
      rw [deleteGo]
      by_cases h1 : key < k
      · rw [if_pos h1]
        exact ihl (RBCtx.left ctx c k v r) hc hbl
      · by_cases h2 : k < key
        · rw [if_neg h1, if_pos h2]
          exact ihr (RBCtx.right ctx c l k v) hc hbr
        · rw [if_neg h1, if_neg h2]
          obtain ⟨res, hd⟩ := delNode_some ctx c l k v r h hb
          rw [hd]
          exact ⟨_, rfl⟩

theorem Delete_ok [LinearOrder K] (t : RBTree K V) (key : K)
    (hbh : (bhChk t.root).isSome = true) :
    ∃ res, Delete t key = some res := by
  obtain ⟨h, hb⟩ := Option.isSome_iff_exists.mp hbh
  obtain ⟨res, hd⟩ := deleteGo_some key t.root RBCtx.top h hb
  obtain ⟨r0, b⟩ := res
  unfold Delete
  rw [hd]
  cases b with
  | true => exact ⟨_, rfl⟩
  | false => exact ⟨_, rfl⟩

end RBT

namespace RBT

open RBNode RBCtx

variable {K V : Type}

instance decValidRB [LinearOrder K] (t : RBTree K V) : Decidable (validRB t) :=
  inferInstanceAs (Decidable (rootBlackOrEmpty t.root = true ∧ rrOK t.root = true ∧
    (bhChk t.root).isSome = true ∧ List.Pairwise (· < ·) (keysList t.root)))

/-- Concrete valid tree exercising the rotation claims. -/
def c10t : RBTree Int Int :=
  (applyOps [Op.set 2 1, Op.set 1 1, Op.set 3 1, Op.set 4 1]).getD empty

/-- C10: `rotateLeft` dereferences `x.right` unconditionally — a nil right
child is the panic branch, modelled by `none` (mirror for `rotateRight` and
`x.left`).  On a tree satisfying the red-black invariants every `Set` and
every `Delete` completes (`some`), and since a `none` from any rotation call
site inside `fixInsert`/`fixDelete` would propagate to the operation's
result, no reachable rotation ever takes the nil-dereference branch. -/
theorem claim_C10_rotations [LinearOrder K] (t : RBTree K V) (key : K)
    (value : V) (c : Bool) (l : RBNode K V) (k : K) (v : V)
    (hv : validRB t) :
    rotateLeft (RBNode.node c l k v RBNode.nil) = none ∧
    rotateRight (RBNode.node c RBNode.nil k v l) = none ∧
    (∃ t', Set t key value = some t') ∧
    (∃ res, Delete t key = some res) := by
  refine ⟨rfl, rfl, ?_, ?_⟩
  · obtain ⟨t', hs, _⟩ := Set_ok t key value hv
    exact ⟨t', hs⟩
  · exact Delete_ok t key hv.2.2.1

theorem claim_C10_rotations_witness :
    validRB c10t ∧ (∃ t', Set c10t (5 : Int) 5 = some t') ∧
      (∃ res, Delete c10t (2 : Int) = some res) :=
  ⟨by decide,
    (claim_C10_rotations c10t 5 5 true RBNode.nil 0 0 (by decide)).2.2.1,
    (claim_C10_rotations c10t 2 2 true RBNode.nil 0 0 (by decide)).2.2.2⟩

/-- Concrete valid tree for the set-then-delete round trip. -/
def c3t : RBTree Int Int :=
  (applyOps [Op.set 1 10, Op.set 2 20]).getD empty

/-- C3: on a tree satisfying the red-black invariants, for a key not present,
`Set(key, value)` succeeds, the following `Delete(key)` succeeds reporting
`true`, and both `Len` and the full ordered `Pairs` sequence are restored to
their values before the `Set`. -/
theorem claim_C3_roundtrip [LinearOrder K] (t : RBTree K V) (key : K)
    (value : V) (hv : validRB t) (habs : key ∉ Keys t) :
    ∃ t' t'', Set t key value = some t' ∧ Delete t' key = some (t'', true) ∧
      Len t'' = Len t ∧ Pairs t'' = Pairs t := by
  obtain ⟨t', hset, hv'⟩ := Set_ok t key value hv
  obtain ⟨hpairs, hsize⟩ := Set_spec t key value t' hv.2.2.2 hset
  obtain ⟨⟨t'', b⟩, hdel⟩ := Delete_ok t' key hv'.2.2.1
  obtain ⟨hp2, hb2, hs2⟩ := Delete_spec t' key t'' b hv'.2.2.2 hdel
  have hkeys' : key ∈ Keys t' := by
    rw [Keys_eq_map_fst_Pairs, hpairs, map_fst_linsert]
    exact (mem_insertK key key _).mpr (Or.inl rfl)
  have hb : b = true := hb2.mpr hkeys'
  subst hb
  refine ⟨t', t'', hset, hdel, ?_, ?_⟩
  · show t''.size = t.size
    rw [hs2, hsize]
    simp [habs, hkeys']
  · rw [hp2, hpairs]
    apply eraseKeyP_linsert_roundtrip
    rw [← Keys_eq_map_fst_Pairs]
    exact habs

theorem claim_C3_roundtrip_witness :
    validRB c3t ∧ (5 : Int) ∉ Keys c3t ∧
      ∃ t' t'', Set c3t (5 : Int) 50 = some t' ∧
        Delete t' 5 = some (t'', true) ∧
        Len t'' = Len c3t ∧ Pairs t'' = Pairs c3t :=
  ⟨by decide, by decide, claim_C3_roundtrip c3t 5 50 (by decide) (by decide)⟩

end RBT

namespace RBT

open RBNode RBCtx

variable {K V : Type}

/-- The color of the node `deleteNode` physically unlinks (`y`): the node
itself when it has at most one child, the in-order successor otherwise. -/
def removedColor (c : Bool) (l r : RBNode K V) : Bool :=
  match l, r with
  | .nil, _ => c
  | _, .nil => c
  | _, .node rc rl rk rv rr => (splitMinGo rc rl rk rv rr).1

theorem isRed_kv (c : Bool) (l : RBNode K V) (k k' : K) (v v' : V)
    (r : RBNode K V) :
    isRed (RBNode.node c l k v r) = isRed (RBNode.node c l k' v' r) := by
  cases c <;> rfl

theorem splitMinGo_plug (c : Bool) (l : RBNode K V) (k : K) (v : V)
    (r : RBNode K V) :
    ∀ cy ky vy x path, splitMinGo c l k v r = (cy, ky, vy, x, path) →
      spinePlug path (RBNode.node cy RBNode.nil ky vy x)
        = RBNode.node c l k v r := by
  induction l generalizing c k v r with
  | nil =>
      intro cy ky vy x path h
      simp only [splitMinGo, Prod.mk.injEq] at h
      obtain ⟨rfl, rfl, rfl, rfl, rfl⟩ := h
      rfl
  | node c' l' k' v' r' ihl ihr =>
      intro cy ky vy x path h
      obtain ⟨qc, qk, qv, qx, qpath, hq⟩ :
          ∃ a b u d e, splitMinGo c' l' k' v' r' = (a, b, u, d, e) :=
        ⟨_, _, _, _, _, rfl⟩
      rw [splitMinGo] at h
      simp only [hq, Prod.mk.injEq] at h
      obtain ⟨rfl, rfl, rfl, rfl, rfl⟩ := h
      rw [spinePlug, List.foldr_cons, ← spinePlug, ihl c' k' v' r' qc qk qv qx qpath hq]

/-- A red node with a nil left child is a leaf on a black-height-consistent,
red-red-free tree. -/
theorem red_left_nil_leaf {k : K} {v : V} {r : RBNode K V} {h : Nat}
    (hb : bhChk (RBNode.node true RBNode.nil k v r) = some h)
    (hrr : rrOK (RBNode.node true RBNode.nil k v r) = true) :
    r = RBNode.nil := by
  obtain ⟨hc, hbl, hbr, hh⟩ := bhChk_node_elim hb
  have hc0 : hc = 0 := by
    rw [bhChk] at hbl
    injection hbl with hbl
    exact hbl.symm
  subst hc0
  obtain ⟨_, _, _, hred⟩ := rrOK_red_elim hrr
  cases r with
  | nil => rfl
  | node rc rl rk rv rr =>
      cases rc with
      | true => exact Bool.noConfusion hred
      | false =>
          obtain ⟨hc', _, _, hh'⟩ := bhChk_node_elim hbr
          simp at hh'

/-- Mirror: a red node with a nil right child is a leaf. -/
theorem red_right_nil_leaf {l : RBNode K V} {k : K} {v : V} {h : Nat}
    (hb : bhChk (RBNode.node true l k v RBNode.nil) = some h)
    (hrr : rrOK (RBNode.node true l k v RBNode.nil) = true) :
    l = RBNode.nil := by
  obtain ⟨hc, hbl, hbr, hh⟩ := bhChk_node_elim hb
  have hc0 : hc = 0 := by
    rw [bhChk] at hbr
    injection hbr with hbr
    exact hbr.symm
  subst hc0
  obtain ⟨_, _, hred, _⟩ := rrOK_red_elim hrr
  cases l with
  | nil => rfl
  | node lc ll lk lv lr =>
      cases lc with
      | true => exact Bool.noConfusion hred
      | false =>
          obtain ⟨hc', _, _, hh'⟩ := bhChk_node_elim hbl
          simp at hh'

/-- When the successor found by `deleteNode` is red, its replacement child
`x` is nil. -/
theorem splitMinGo_red_leaf (c : Bool) (l : RBNode K V) (k : K) (v : V)
    (r : RBNode K V) :
    ∀ (h : Nat), bhChk (RBNode.node c l k v r) = some h →
      rrOK (RBNode.node c l k v r) = true →
      ∀ ky vy x path, splitMinGo c l k v r = (true, ky, vy, x, path) →
        x = RBNode.nil := by
  induction l generalizing c k v r with
  | nil =>
      intro h hb hrr ky vy x path hsm
      simp only [splitMinGo, Prod.mk.injEq] at hsm
      obtain ⟨rfl, rfl, rfl, rfl, rfl⟩ := hsm
      exact red_left_nil_leaf hb hrr
  | node c' l' k' v' r' ihl ihr =>
      intro h hb hrr ky vy x path hsm
      obtain ⟨hc, hbl, hbr, hh⟩ := bhChk_node_elim hb
      obtain ⟨hrrl, hrrr, _⟩ := rrOK_node_elim hrr
      obtain ⟨qc, qk, qv, qx, qpath, hq⟩ :
          ∃ a b u d e, splitMinGo c' l' k' v' r' = (a, b, u, d, e) :=
        ⟨_, _, _, _, _, rfl⟩
      rw [splitMinGo] at hsm
      simp only [hq, Prod.mk.injEq] at hsm
      obtain ⟨rfl, rfl, rfl, rfl, rfl⟩ := hsm
      exact ihl c' k' v' r' hc hbl hrrl qk qv qx qpath hq

theorem foldl_left_ne_top (path : List (Frame K V)) :
    ∀ (base : RBCtx K V), base ≠ RBCtx.top →
      path.foldl (fun acc f => RBCtx.left acc f.fc f.fk f.fv f.fr) base
        ≠ RBCtx.top := by
  induction path with
  | nil => intro base hb; exact hb
  | cons f rest ih =>
      intro base _
      rw [List.foldl_cons]
      exact ih _ (by simp)

/-- `deleteNode` preserves the BST order invariant. -/
theorem delNode_ordered [LinearOrder K] (ctx : RBCtx K V) (c : Bool)
    (l : RBNode K V) (k : K) (v : V) (r : RBNode K V) (res : RBNode K V)
    (hord : ordered (plug ctx (RBNode.node c l k v r)))
    (h : delNode ctx c l k v r = some res) : ordered res := by
  rw [ordered, keysList_eq_map_inorderP, inorderP_plug] at hord
  have hsub : ((inorderP (RBNode.node c l k v r)).map Prod.fst).Sorted
      (· < ·) := by
    apply List.Pairwise.sublist _ hord
    simp only [List.map_append]
    have h1 : List.Sublist ((inorderP (RBNode.node c l k v r)).map Prod.fst)
        ((inorderP (RBNode.node c l k v r)).map Prod.fst
          ++ (ctxR ctx).map Prod.fst) := List.sublist_append_left _ _
    have h2 : List.Sublist
        ((inorderP (RBNode.node c l k v r)).map Prod.fst
          ++ (ctxR ctx).map Prod.fst)
        ((ctxL ctx).map Prod.fst
          ++ ((inorderP (RBNode.node c l k v r)).map Prod.fst
            ++ (ctxR ctx).map Prod.fst)) := List.sublist_append_right _ _
    rw [← List.append_assoc] at h2
    exact h1.trans h2
  have hnel : ∀ a ∈ (inorderP l).map Prod.fst, a ≠ k := by
    rw [← keysList_eq_map_inorderP] at hsub ⊢
    obtain ⟨_, _, hlt, _⟩ := sorted_node_facts hsub
    exact fun a ha => ne_of_lt (hlt a ha)
  have hio := delNode_spec ctx c l k v r res hnel h
  rw [ordered, keysList_eq_map_inorderP, hio]
  apply List.Pairwise.sublist _ hord
  simp only [List.map_append, map_fst_eraseKeyP, ← keysList_eq_map_inorderP]
  refine List.Sublist.append (List.Sublist.append (List.Sublist.refl _) ?_)
    (List.Sublist.refl _)
  exact eraseK_sublist k _

end RBT

namespace RBT

open RBNode RBCtx

variable {K V : Type}

instance decOrdered [LinearOrder K] (n : RBNode K V) : Decidable (ordered n) :=
  inferInstanceAs (Decidable ((keysList n).Sorted (· < ·)))

/-- C4: when `Delete` physically removes a red node (`removedColor` is the
color of the node `deleteNode` unlinks: the found node itself when it has at
most one child, its in-order successor otherwise), the guard
`y.color == black && x != nil` fails, so the fixup is skipped entirely and
the result is the pure structural splice of the removed red node — which on
a tree satisfying the red-black invariants is a leaf, so the splice puts
`nil` in its hole.  The splice changes no path's black count (`bhChk` is
preserved exactly) and keeps the root black, the no-red-red invariant and
the BST order. -/
theorem claim_C4_red_delete [LinearOrder K] (ctx : RBCtx K V) (c : Bool)
    (l : RBNode K V) (k : K) (v : V) (r : RBNode K V)
    (hrb : rootBlackOrEmpty (plug ctx (RBNode.node c l k v r)) = true)
    (hrr : rrOK (plug ctx (RBNode.node c l k v r)) = true)
    (hbh : (bhChk (plug ctx (RBNode.node c l k v r))).isSome = true)
    (hord : ordered (plug ctx (RBNode.node c l k v r)))
    (hred : removedColor c l r = true) :
    ∃ ctx2, delNode ctx c l k v r = some (plug ctx2 RBNode.nil) ∧
      bhChk (plug ctx2 RBNode.nil)
        = bhChk (plug ctx (RBNode.node c l k v r)) ∧
      rootBlackOrEmpty (plug ctx2 RBNode.nil) = true ∧
      rrOK (plug ctx2 RBNode.nil) = true ∧
      ordered (plug ctx2 RBNode.nil) := by
  rw [bhChk_plug] at hbh
  obtain ⟨h, hz⟩ : ∃ h, bhChk (RBNode.node c l k v r) = some h := by
    cases hx : bhChk (RBNode.node c l k v r) with
    | none => rw [hx] at hbh; simp at hbh
    | some h => exact ⟨h, rfl⟩
  obtain ⟨hok, hrrz, hcol⟩ := (rrOK_plug ctx _).mp hrr
  cases l with
  | nil =>
      have hc : c = true := by
        rw [show removedColor c RBNode.nil r = c from by cases r <;> rfl] at hred
        exact hred
      subst hc
      have hrnil : r = RBNode.nil := red_left_nil_leaf hz hrrz
      subst hrnil
      have hd : delNode ctx true RBNode.nil k v RBNode.nil
          = some (plug ctx RBNode.nil) := by
        rw [delNode]
        rw [if_neg (by simp)]
      have h0 : h = 0 := by
        rw [show bhChk (RBNode.node true RBNode.nil k v RBNode.nil)
          = some 0 from rfl] at hz
        injection hz with hz
        exact hz.symm
      subst h0
      refine ⟨ctx, hd, ?_, ?_, ?_, ?_⟩
      · rw [bhChk_plug, bhChk_plug, hz]
        rfl
      · cases ctx with
        | top => rfl
        | left p pc pk pv pr =>
            rw [rootBlack_plug_congr _ (by simp) RBNode.nil
              (RBNode.node true RBNode.nil k v RBNode.nil)]
            exact hrb
        | right p pc pl pk pv =>
            rw [rootBlack_plug_congr _ (by simp) RBNode.nil
              (RBNode.node true RBNode.nil k v RBNode.nil)]
            exact hrb
      · rw [rrOK_plug]
        exact ⟨hok, rfl, fun _ => rfl⟩
      · exact delNode_ordered ctx true RBNode.nil k v RBNode.nil _ hord hd
  | node lc ll lk lv lr =>
      cases r with
      | nil =>
          have hc : c = true := by
            rw [show removedColor c (RBNode.node lc ll lk lv lr) RBNode.nil
              = c from rfl] at hred
            exact hred
          subst hc
          have := red_right_nil_leaf hz hrrz
          exact absurd this (by simp)
      | node rc rl rk rv rr =>
          obtain ⟨cy, ky, vy, x, path, hsm⟩ :
              ∃ a b u d e, splitMinGo rc rl rk rv rr = (a, b, u, d, e) :=
            ⟨_, _, _, _, _, rfl⟩
          have hcy : cy = true := by
            have : removedColor c (RBNode.node lc ll lk lv lr)
                (RBNode.node rc rl rk rv rr)
                = (splitMinGo rc rl rk rv rr).1 := rfl
            rw [this, hsm] at hred
            exact hred
          subst hcy
          obtain ⟨hcz, hbl, hbr, hh⟩ := bhChk_node_elim hz
          obtain ⟨hrrl, hrrr, _⟩ := rrOK_node_elim hrrz
          have hxnil : x = RBNode.nil :=
            splitMinGo_red_leaf rc rl rk rv rr hcz hbr hrrr ky vy x path hsm
          subst hxnil
          have hd : delNode ctx c (RBNode.node lc ll lk lv lr) k v
              (RBNode.node rc rl rk rv rr)
              = some (plug (path.foldl
                  (fun acc f => RBCtx.left acc f.fc f.fk f.fv f.fr)
                  (RBCtx.right ctx c (RBNode.node lc ll lk lv lr) ky vy))
                RBNode.nil) := by
            rw [delNode, hsm]
            dsimp only
            rw [if_neg (by simp)]
          have hplugY : ∀ t : RBNode K V,
              plug (path.foldl
                  (fun acc f => RBCtx.left acc f.fc f.fk f.fv f.fr)
                  (RBCtx.right ctx c (RBNode.node lc ll lk lv lr) ky vy)) t
              = plug ctx (RBNode.node c (RBNode.node lc ll lk lv lr) ky vy
                  (spinePlug path t)) := by
            intro t
            rw [plug_foldl]
            rfl
          have hspine : spinePlug path
              (RBNode.node true RBNode.nil ky vy RBNode.nil)
              = RBNode.node rc rl rk rv rr :=
            splitMinGo_plug rc rl rk rv rr true ky vy RBNode.nil path hsm
          refine ⟨_, hd, ?_, ?_, ?_, ?_⟩
          · have e1 : bhChk (plug (path.foldl
                (fun acc f => RBCtx.left acc f.fc f.fk f.fv f.fr)
                (RBCtx.right ctx c (RBNode.node lc ll lk lv lr) ky vy))
                RBNode.nil)
                = bhChk (plug (path.foldl
                  (fun acc f => RBCtx.left acc f.fc f.fk f.fv f.fr)
                  (RBCtx.right ctx c (RBNode.node lc ll lk lv lr) ky vy))
                  (RBNode.node true RBNode.nil ky vy RBNode.nil)) := by
              rw [bhChk_plug, bhChk_plug]
              rfl
            rw [e1, hplugY, hspine, bhChk_plug, bhChk_plug]
            rw [show bhChk (RBNode.node c (RBNode.node lc ll lk lv lr) ky vy
                (RBNode.node rc rl rk rv rr))
              = bhChk (RBNode.node c (RBNode.node lc ll lk lv lr) k v
                (RBNode.node rc rl rk rv rr)) from rfl]
          · have hne : (path.foldl
                (fun acc f => RBCtx.left acc f.fc f.fk f.fv f.fr)
                (RBCtx.right ctx c (RBNode.node lc ll lk lv lr) ky vy))
                ≠ RBCtx.top :=
              foldl_left_ne_top path _ (by simp)
            rw [rootBlack_plug_congr _ hne RBNode.nil
              (RBNode.node true RBNode.nil ky vy RBNode.nil), hplugY, hspine]
            cases ctx with
            | top => exact hrb
            | left p pc pk pv pr =>
                rw [rootBlack_plug_congr _ (by simp) _
                  (RBNode.node c (RBNode.node lc ll lk lv lr) k v
                    (RBNode.node rc rl rk rv rr))]
                exact hrb
            | right p pc pl pk pv =>
                rw [rootBlack_plug_congr _ (by simp) _
                  (RBNode.node c (RBNode.node lc ll lk lv lr) k v
                    (RBNode.node rc rl rk rv rr))]
                exact hrb
          · have hrrT' : rrOK (plug (path.foldl
                (fun acc f => RBCtx.left acc f.fc f.fk f.fv f.fr)
                (RBCtx.right ctx c (RBNode.node lc ll lk lv lr) ky vy))
                (RBNode.node true RBNode.nil ky vy RBNode.nil)) = true := by
              rw [hplugY, hspine, rrOK_plug]
              refine ⟨hok, ?_, ?_⟩
              · rw [show rrOK (RBNode.node c (RBNode.node lc ll lk lv lr) ky vy
                    (RBNode.node rc rl rk rv rr))
                  = rrOK (RBNode.node c (RBNode.node lc ll lk lv lr) k v
                    (RBNode.node rc rl rk rv rr)) from rfl]
                exact hrrz
              · intro hcc
                rw [isRed_kv c (RBNode.node lc ll lk lv lr) ky k vy v
                  (RBNode.node rc rl rk rv rr)]
                exact hcol hcc
            obtain ⟨hokY, _, _⟩ := (rrOK_plug _ _).mp hrrT'
            rw [rrOK_plug]
            exact ⟨hokY, rfl, fun _ => rfl⟩
          · exact delNode_ordered ctx c (RBNode.node lc ll lk lv lr) k v
              (RBNode.node rc rl rk rv rr) _ hord hd

theorem claim_C4_red_delete_witness :
    removedColor true RBNode.nil (RBNode.nil : RBNode Int Int) = true ∧
    ∃ ctx2, delNode (RBCtx.left RBCtx.top false (2 : Int) (20 : Int)
        RBNode.nil) true RBNode.nil (1 : Int) (10 : Int) RBNode.nil
        = some (plug ctx2 RBNode.nil) ∧
      bhChk (plug ctx2 RBNode.nil)
        = bhChk (plug (RBCtx.left RBCtx.top false (2 : Int) (20 : Int)
            RBNode.nil)
          (RBNode.node true RBNode.nil (1 : Int) (10 : Int) RBNode.nil)) ∧
      rootBlackOrEmpty (plug ctx2 RBNode.nil) = true ∧
      rrOK (plug ctx2 RBNode.nil) = true ∧
      ordered (plug ctx2 RBNode.nil) :=
  ⟨by decide,
    claim_C4_red_delete (RBCtx.left RBCtx.top false (2 : Int) (20 : Int)
        RBNode.nil) true RBNode.nil (1 : Int) (10 : Int) RBNode.nil
      (by decide) (by decide) (by decide) (by decide) (by decide)⟩

end RBT
